import Mathlib

/-!
Verification of the parent-link reconciliation component of the event editor
(`eventeditor/event_parent_edit_dialog.py`).

Shallow embedding conventions:
* Python `Event` objects are identified by a stable `Nat` handle (`Event.id`);
  Python object identity (`is`, default `==`, set/dict membership on events)
  becomes equality of handles.  Distinct live objects have distinct handles,
  expressed by the `Nodup` condition in `wfGraph`.
* An event's payload (`ActionEvent`/`JoinEvent`/`SubFlowEvent`, `SwitchEvent`,
  `ForkEvent`, anything else) is the sum type `EventData`.  A `RequiredIndex`
  whose `.v` may be unset is an `Option Nat`.
* The Python dict `SwitchEvent.cases` is an insertion-ordered association list
  `List (Int × Nat)`; dict key uniqueness is the `wfEvent` condition.
  `del d[k]` keeps the order of the remaining entries and `d[k] = v` for a new
  key appends at the end, which is how the embedding operates on the list.
* The in-place mutation of `_applyChanges` (which returns a success `Bool`
  and may leave the graph partially mutated when it bails out mid-loop)
  becomes a function `Graph → Bool × Graph` returning the success flag and
  the state of the graph when the routine returned.
* The two `QMessageBox.question` outcomes of the overwrite confirmation are a
  `confirm : Bool` parameter; message-box display itself is presentation glue.
-/

namespace EventEditor

/-- Kinds of parent links, from `ParentLinkType` in
`event_parent_edit_dialog.py` (`Next`, `SwitchCase`, `ForkBranch`). -/
inductive ParentLinkType where
  | next
  | switchCase
  | forkBranch
deriving DecidableEq

/-- Payload of a flowchart event.  `sequential` covers the three shapes with a
single optional successor (`ActionEvent`, `JoinEvent`, `SubFlowEvent`, whose
`nxt.v` may be unset), `switch` is a `SwitchEvent` with its insertion-ordered
`cases` dict, `fork` is a `ForkEvent` with its ordered `forks` list, and
`other` is any other event kind (not reconcilable). -/
inductive EventData where
  | sequential (nxt : Option Nat)
  | switch (cases : List (Int × Nat))
  | fork (forks : List Nat)
  | other
deriving DecidableEq

/-- A flowchart event: a stable identity handle plus its payload. -/
structure Event where
  id : Nat
  data : EventData
deriving DecidableEq

/-- The flowchart graph: `flow.flowchart.events`, in iteration order. -/
abbrev Graph := List Event

/-- `ParentLink` from the source: parent event (by identity handle), link
type, and the optional detail (the switch-case value; `None` otherwise).
`DecidableEq` is the structural `__eq__` of the source. -/
structure ParentLink where
  parent : Nat
  linkType : ParentLinkType
  detail : Option Int
deriving DecidableEq

/-- Python dict lookup `cases[value]` on the ordered association list. -/
def lookupCase (v : Int) : List (Int × Nat) → Option Nat
  | [] => none
  | c :: rest => if c.1 = v then some c.2 else lookupCase v rest

/-- Membership of `p` in the `desired_next` set built at the top of
`_applyChanges` (a `Next` link adds its parent regardless of `detail`). -/
def wantsNext (desired : List ParentLink) (p : Nat) : Bool :=
  desired.any fun pl => decide (pl.parent = p ∧ pl.linkType = ParentLinkType.next)

/-- The set `desired_switch[p]` of `_applyChanges`, as the list of switch-case
values requested for parent `p`, in desired-list order.  (The source asserts
`pl.detail is not None` for switch-case links; links violating that assert
cannot be built by the dialog and are dropped here.) -/
def desiredSwitchValues (desired : List ParentLink) (p : Nat) : List Int :=
  desired.filterMap fun pl =>
    if pl.parent = p ∧ pl.linkType = ParentLinkType.switchCase then pl.detail else none

/-- Number of links in `l` with the given parent and link type.  Instantiated
at `ParentLinkType.forkBranch` this is `desired_fork_count.get(p, 0)`. -/
def linkCount (l : List ParentLink) (p : Nat) (t : ParentLinkType) : Nat :=
  (l.filter fun pl => decide (pl.parent = p ∧ pl.linkType = t)).length

/-- The sequential-event branch of the apply loop: overwrite `nxt` when the
parent is in `desired_next`, clear it when it currently points at the child,
leave it alone otherwise. -/
def applyNext (child : Nat) (want : Bool) (nxt : Option Nat) : Option Nat :=
  if want then some child
  else if nxt = some child then none
  else nxt

/-- The case-removal loop of the switch branch: delete every case that targets
the child and whose value is not desired. -/
def removeStaleCases (child : Nat) (values : List Int) (cases : List (Int × Nat)) :
    List (Int × Nat) :=
  cases.filter fun c => !decide (c.2 = child ∧ c.1 ∉ values)

/-- The case-addition loop of the switch branch: for each desired value, fail
on a case bound to a different event, skip a case already bound to the child,
and append a new case otherwise.  Returns the success flag and the state of
the case dict when the loop stopped. -/
def addDesiredCases (child : Nat) (values : List Int) (cases : List (Int × Nat)) :
    Bool × List (Int × Nat) :=
  match values with
  | [] => (true, cases)
  | v :: rest =>
    match lookupCase v cases with
    | some t =>
      if t = child then addDesiredCases child rest cases
      else (false, cases)
    | none => addDesiredCases child rest (cases ++ [(v, child)])

/-- The whole switch branch of the apply loop: removal then addition. -/
def applySwitchEvent (child : Nat) (values : List Int) (cases : List (Int × Nat)) :
    Bool × List (Int × Nat) :=
  addDesiredCases child values (removeStaleCases child values cases)

/-- Number of fork branches targeting the child
(`len([fork for fork in data.forks if fork.v == child])`). -/
def countChild (child : Nat) (forks : List Nat) : Nat :=
  (forks.filter fun f => decide (f = child)).length

/-- The excess-removal loop of the fork branch: keep every branch not
targeting the child, and the first `remaining` branches that do. -/
def keepFirstBranches (child : Nat) (remaining : Nat) : List Nat → List Nat
  | [] => []
  | f :: rest =>
    if f ≠ child then f :: keepFirstBranches child remaining rest
    else if remaining > 0 then f :: keepFirstBranches child (remaining - 1) rest
    else keepFirstBranches child remaining rest

/-- The fork branch of the apply loop: trim trailing child-targeting branches
when too many, append new ones when too few, do nothing when counts agree. -/
def applyForkEvent (child : Nat) (desired : Nat) (forks : List Nat) : List Nat :=
  let current := countChild child forks
  if desired < current then keepFirstBranches child desired forks
  else if current < desired then forks ++ List.replicate (desired - current) child
  else forks

/-- One iteration of the apply loop of `_applyChanges` on a single event:
returns the success flag and the (possibly partially updated) event. -/
def processEvent (child : Nat) (desired : List ParentLink) (e : Event) : Bool × Event :=
  match e.data with
  | EventData.sequential nxt =>
    (true, ⟨e.id, EventData.sequential (applyNext child (wantsNext desired e.id) nxt)⟩)
  | EventData.switch cases =>
    let r := applySwitchEvent child (desiredSwitchValues desired e.id) cases
    (r.1, ⟨e.id, EventData.switch r.2⟩)
  | EventData.fork forks =>
    (true, ⟨e.id, EventData.fork
      (applyForkEvent child (linkCount desired e.id ParentLinkType.forkBranch) forks)⟩)
  | EventData.other => (true, e)

/-- The apply loop over `flow.flowchart.events`: events are processed in
order; a conflict returns immediately, leaving the failing event partially
updated and every later event untouched. -/
def applyToEvents (child : Nat) (desired : List ParentLink) : Graph → Bool × Graph
  | [] => (true, [])
  | e :: rest =>
    let r := processEvent child desired e
    if r.1 then
      let rr := applyToEvents child desired rest
      (rr.1, r.2 :: rr.2)
    else (false, r.2 :: rest)

/-- The `to_overwrite` check of `_applyChanges`: some parent in
`desired_next` is a sequential event whose `nxt` is set and is not the
child. -/
def needsOverwriteConfirm (child : Nat) (desired : List ParentLink) (g : Graph) : Bool :=
  g.any fun e =>
    wantsNext desired e.id &&
      match e.data with
      | EventData.sequential (some t) => decide (t ≠ child)
      | _ => false

/-- The `(parent, detail)` keys of the switch-case links of `l`, in order —
the keys inspected by `ParentLinkModel.isValid`. -/
def collectSwitchKeys (l : List ParentLink) : List (Nat × Option Int) :=
  l.filterMap fun pl =>
    if pl.linkType = ParentLinkType.switchCase then some (pl.parent, pl.detail) else none

/-- The seen-set scan of `ParentLinkModel.isValid`: true iff no key repeats. -/
def noDupKeys : List (Nat × Option Int) → Bool
  | [] => true
  | k :: rest => !decide (k ∈ rest) && noDupKeys rest

/-- `ParentLinkModel.isValid`: switch-case values are unique per parent. -/
def isValid (l : List ParentLink) : Bool :=
  noDupKeys (collectSwitchKeys l)

/-- `EditParentsDialog._applyChanges`: validation, overwrite confirmation,
then the apply loop.  `confirm` is the user's answer to the overwrite
question; the returned graph is the state when the routine returned. -/
def applyChanges (child : Nat) (desired : List ParentLink) (confirm : Bool) (g : Graph) :
    Bool × Graph :=
  if !isValid desired then (false, g)
  else if needsOverwriteConfirm child desired g && !confirm then (false, g)
  else applyToEvents child desired g

/-- The links contributed by one event in
`EditParentsDialog._gatherExistingLinks`. -/
def gatherEventLinks (child : Nat) (e : Event) : List ParentLink :=
  match e.data with
  | EventData.sequential nxt =>
    if nxt = some child then [⟨e.id, ParentLinkType.next, none⟩] else []
  | EventData.switch cases =>
    cases.filterMap fun c =>
      if c.2 = child then some ⟨e.id, ParentLinkType.switchCase, some c.1⟩ else none
  | EventData.fork forks =>
    forks.filterMap fun f =>
      if f = child then some ⟨e.id, ParentLinkType.forkBranch, none⟩ else none
  | EventData.other => []

/-- `EditParentsDialog._gatherExistingLinks`: scan the whole graph, in order,
for links currently pointing at the child. -/
def gatherExistingLinks (child : Nat) : Graph → List ParentLink
  | [] => []
  | e :: rest => gatherEventLinks child e ++ gatherExistingLinks child rest

/-- `ParentLinkModel.appendLink`: reject an exact (structural) duplicate,
otherwise append at the end.  Returns the success flag and the new list. -/
def appendLink (l : List ParentLink) (link : ParentLink) : Bool × List ParentLink :=
  if l.any fun pl => decide (link = pl) then (false, l)
  else (true, l ++ [link])

/-- `ParentLinkModel.removeRow`: `self.l.pop(row)`. -/
def removeRowFromModel (l : List ParentLink) (row : Nat) : List ParentLink :=
  l.eraseIdx row

/-- An edit operation on the transient link list: an `appendLink` call or a
`removeRow` call. -/
inductive EditOp where
  | append (pl : ParentLink)
  | removeRow (row : Nat)

/-- Apply one edit operation to the list. -/
def applyEditOp (l : List ParentLink) : EditOp → List ParentLink
  | EditOp.append pl => (appendLink l pl).2
  | EditOp.removeRow r => removeRowFromModel l r

/-- Run a sequence of edit operations, left to right. -/
def runEdits (l : List ParentLink) : List EditOp → List ParentLink
  | [] => l
  | op :: rest => runEdits (applyEditOp l op) rest

/-- Compatibility of a link type with an event payload kind, mirroring the
`isinstance` dispatch used both by `addParent` and by the apply loop. -/
def compatibleKind : ParentLinkType → EventData → Bool
  | ParentLinkType.next, EventData.sequential _ => true
  | ParentLinkType.switchCase, EventData.switch _ => true
  | ParentLinkType.forkBranch, EventData.fork _ => true
  | _, _ => false

/-- The case dict of a switch event, `[]` for any other payload. -/
def casesOf (e : Event) : List (Int × Nat) :=
  match e.data with
  | EventData.switch cases => cases
  | _ => []

/-- Well-formedness of one event under the embedding: a switch event's case
dict has no repeated keys (automatic for a Python dict). -/
def wfEvent (e : Event) : Prop :=
  ((casesOf e).map Prod.fst).Nodup

instance (e : Event) : Decidable (wfEvent e) := by
  unfold wfEvent; infer_instance

/-- Well-formedness of a graph under the embedding: handles are distinct
(they model object identity) and every event is well-formed. -/
def wfGraph (g : Graph) : Prop :=
  (g.map Event.id).Nodup ∧ ∀ e ∈ g, wfEvent e

instance (g : Graph) : Decidable (wfGraph g) := by
  unfold wfGraph; infer_instance

/-- The event currently has no link of any kind pointing at the child. -/
def notLinkedToChild (child : Nat) (e : Event) : Bool :=
  match e.data with
  | EventData.sequential nxt => decide (nxt ≠ some child)
  | EventData.switch cases => cases.all fun c => decide (c.2 ≠ child)
  | EventData.fork forks => forks.all fun f => decide (f ≠ child)
  | EventData.other => true

/-! ### Basic lemmas about the validation scan -/

lemma noDupKeys_eq_true_iff (l : List (Nat × Option Int)) :
    noDupKeys l = true ↔ l.Nodup := by
  induction l with
  | nil => simp [noDupKeys]
  | cons k rest ih => simp [noDupKeys, List.nodup_cons, ih]

lemma isValid_eq_false_of_dup (d : List ParentLink) (pl : ParentLink)
    (hsc : pl.linkType = ParentLinkType.switchCase) (hdup : 2 ≤ d.count pl) :
    isValid d = false := by
  have hsub : List.Sublist [pl, pl] d := by
    have h := List.le_count_iff_replicate_sublist.mp hdup
    simpa [List.replicate] using h
  have hkeys : List.Sublist [(pl.parent, pl.detail), (pl.parent, pl.detail)]
      (collectSwitchKeys d) := by
    have h2 := hsub.filterMap fun pl =>
      if pl.linkType = ParentLinkType.switchCase then some (pl.parent, pl.detail) else none
    simpa [collectSwitchKeys, List.filterMap_cons, hsc] using h2
  have hnd : ¬ (collectSwitchKeys d).Nodup :=
    fun h => (List.nodup_iff_sublist.mp h _) hkeys
  unfold isValid
  cases h : noDupKeys (collectSwitchKeys d) with
  | false => rfl
  | true => exact absurd ((noDupKeys_eq_true_iff _).mp h) hnd

/-! ### Claim theorems: validation and add-time errors -/

/-- C3: if two desired links share the same `(parent, SwitchCase, detail)`
triple (i.e. a switch-case link occurs at two positions of the desired list),
the apply operation is rejected by the validation step before any mutation:
it returns failure and the graph is returned unchanged. -/
theorem C3_duplicate_switch_pair_rejected (child : Nat) (desired : List ParentLink)
    (confirm : Bool) (g : Graph) (pl : ParentLink)
    (hsc : pl.linkType = ParentLinkType.switchCase)
    (hdup : 2 ≤ desired.count pl) :
    applyChanges child desired confirm g = (false, g) := by
  unfold applyChanges
  rw [isValid_eq_false_of_dup desired pl hsc hdup]
  simp

/-- Witness for C3 at a concrete duplicated switch-case link. -/
theorem C3_duplicate_switch_pair_rejected_witness :
    (ParentLink.linkType ⟨1, ParentLinkType.switchCase, some 5⟩ = ParentLinkType.switchCase ∧
      2 ≤ ([⟨1, ParentLinkType.switchCase, some 5⟩, ⟨1, ParentLinkType.switchCase, some 5⟩] :
        List ParentLink).count ⟨1, ParentLinkType.switchCase, some 5⟩) ∧
    applyChanges 0
      [⟨1, ParentLinkType.switchCase, some 5⟩, ⟨1, ParentLinkType.switchCase, some 5⟩]
      true [⟨1, EventData.switch []⟩]
    = (false, [⟨1, EventData.switch []⟩]) :=
  ⟨by decide,
    C3_duplicate_switch_pair_rejected 0
      [⟨1, ParentLinkType.switchCase, some 5⟩, ⟨1, ParentLinkType.switchCase, some 5⟩]
      true [⟨1, EventData.switch []⟩] ⟨1, ParentLinkType.switchCase, some 5⟩
      (by decide) (by decide)⟩

/-- C4: `appendLink` rejects a candidate structurally equal to an entry
already in the list: it returns `false` and the list is unchanged (the
duplicate is not merged). -/
theorem C4_append_duplicate_rejected (l : List ParentLink) (link : ParentLink)
    (h : link ∈ l) : appendLink l link = (false, l) := by
  unfold appendLink
  have hany : (l.any fun pl => decide (link = pl)) = true := by
    rw [List.any_eq_true]
    exact ⟨link, h, by simp⟩
  rw [hany]
  simp

/-- Witness for C4 at a concrete duplicate. -/
theorem C4_append_duplicate_rejected_witness :
    ((⟨1, ParentLinkType.forkBranch, none⟩ : ParentLink) ∈
      [⟨2, ParentLinkType.next, none⟩, ⟨1, ParentLinkType.forkBranch, none⟩]) ∧
    appendLink [⟨2, ParentLinkType.next, none⟩, ⟨1, ParentLinkType.forkBranch, none⟩]
      ⟨1, ParentLinkType.forkBranch, none⟩
    = (false, [⟨2, ParentLinkType.next, none⟩, ⟨1, ParentLinkType.forkBranch, none⟩]) :=
  ⟨by decide,
    C4_append_duplicate_rejected
      [⟨2, ParentLinkType.next, none⟩, ⟨1, ParentLinkType.forkBranch, none⟩]
      ⟨1, ParentLinkType.forkBranch, none⟩ (by decide)⟩

/-- C7: if some sequential parent in the desired set has a non-empty next
pointer to an event other than the child, then with the overwrite
confirmation declined the whole apply fails and the graph is returned
unchanged (confirmation is checked before the mutation loop runs). -/
theorem C7_overwrite_declined_no_mutation (child : Nat) (desired : List ParentLink)
    (g : Graph)
    (h : ∃ e ∈ g, wantsNext desired e.id = true ∧
      ∃ t, e.data = EventData.sequential (some t) ∧ t ≠ child) :
    applyChanges child desired false g = (false, g) := by
  have hov : needsOverwriteConfirm child desired g = true := by
    obtain ⟨e, he, hw, t, hd, ht⟩ := h
    unfold needsOverwriteConfirm
    rw [List.any_eq_true]
    refine ⟨e, he, ?_⟩
    rw [hw, hd]
    simp [ht]
  unfold applyChanges
  cases hval : isValid desired with
  | false => simp
  | true => simp [hov]

/-- Witness for C7: a parent whose next pointer is `9`, child `0`. -/
theorem C7_overwrite_declined_no_mutation_witness :
    (∃ e ∈ [(⟨1, EventData.sequential (some 9)⟩ : Event)],
      wantsNext [⟨1, ParentLinkType.next, none⟩] e.id = true ∧
      ∃ t, e.data = EventData.sequential (some t) ∧ t ≠ 0) ∧
    applyChanges 0 [⟨1, ParentLinkType.next, none⟩] false
      [⟨1, EventData.sequential (some 9)⟩]
    = (false, [⟨1, EventData.sequential (some 9)⟩]) :=
  ⟨⟨⟨1, EventData.sequential (some 9)⟩, by decide, by decide, 9, rfl, by decide⟩,
    C7_overwrite_declined_no_mutation 0 [⟨1, ParentLinkType.next, none⟩]
      [⟨1, EventData.sequential (some 9)⟩]
      ⟨⟨1, EventData.sequential (some 9)⟩, by decide, by decide, 9, rfl, by decide⟩⟩

/-! ### Lemmas about case lookup and the case-addition loop -/

lemma lookupCase_append_some (v : Int) (cs ds : List (Int × Nat)) (t : Nat)
    (h : lookupCase v cs = some t) : lookupCase v (cs ++ ds) = some t := by
  induction cs with
  | nil => simp [lookupCase] at h
  | cons c rest ih =>
    rw [List.cons_append]
    simp only [lookupCase] at h ⊢
    by_cases hc : c.1 = v
    · rwa [if_pos hc] at h ⊢
    · rw [if_neg hc] at h ⊢
      exact ih h

lemma lookupCase_eq_some_of_mem (v : Int) (t : Nat) (cs : List (Int × Nat))
    (hnd : (cs.map Prod.fst).Nodup) (hmem : (v, t) ∈ cs) :
    lookupCase v cs = some t := by
  induction cs with
  | nil => cases hmem
  | cons c rest ih =>
    simp only [List.map_cons, List.nodup_cons] at hnd
    rcases List.mem_cons.mp hmem with h | h
    · rw [← h]
      simp [lookupCase]
    · have hc : c.1 ≠ v := by
        intro he
        exact hnd.1 (he ▸ List.mem_map.mpr ⟨(v, t), h, rfl⟩)
      simp only [lookupCase, if_neg hc]
      exact ih hnd.2 h

lemma addDesiredCases_fst_false (c : Nat) (vs : List Int) (cs : List (Int × Nat))
    (h : ∃ v ∈ vs, ∃ t, lookupCase v cs = some t ∧ t ≠ c) :
    (addDesiredCases c vs cs).1 = false := by
  induction vs generalizing cs with
  | nil =>
    obtain ⟨v, hv, _⟩ := h
    cases hv
  | cons w rest ih =>
    obtain ⟨v, hv, t, hl, ht⟩ := h
    unfold addDesiredCases
    cases hw : lookupCase w cs with
    | some u =>
      simp only
      by_cases huc : u = c
      · rw [if_pos huc]
        apply ih
        have hvrest : v ∈ rest := by
          rcases List.mem_cons.mp hv with rfl | hr
          · rw [hl] at hw
            cases hw
            exact absurd huc ht
          · exact hr
        exact ⟨v, hvrest, t, hl, ht⟩
      · rw [if_neg huc]
    | none =>
      simp only
      apply ih
      have hvw : v ≠ w := by
        intro he
        rw [he, hw] at hl
        cases hl
      have hvrest : v ∈ rest := by
        rcases List.mem_cons.mp hv with he | hr
        · exact absurd he hvw
        · exact hr
      exact ⟨v, hvrest, t, lookupCase_append_some v cs [(w, c)] t hl, ht⟩

lemma removeStaleCases_keys_nodup (c : Nat) (vs : List Int) (cs : List (Int × Nat))
    (hnd : (cs.map Prod.fst).Nodup) :
    ((removeStaleCases c vs cs).map Prod.fst).Nodup :=
  List.Nodup.sublist ((List.filter_sublist cs).map Prod.fst) hnd

lemma mem_removeStaleCases (c : Nat) (vs : List Int) (cs : List (Int × Nat))
    (v : Int) (t : Nat) (hmem : (v, t) ∈ cs) (ht : t ≠ c) :
    (v, t) ∈ removeStaleCases c vs cs := by
  rw [removeStaleCases, List.mem_filter]
  exact ⟨hmem, by simp [ht]⟩

lemma applyToEvents_fst_false (c : Nat) (d : List ParentLink) (g : Graph)
    (h : ∃ e ∈ g, (processEvent c d e).1 = false) :
    (applyToEvents c d g).1 = false := by
  induction g with
  | nil =>
    obtain ⟨e, he, _⟩ := h
    cases he
  | cons e0 rest ih =>
    obtain ⟨e, he, hf⟩ := h
    simp only [applyToEvents]
    cases hp : (processEvent c d e0).1 with
    | false => simp [hp]
    | true =>
      simp only [hp, if_true]
      rcases List.mem_cons.mp he with rfl | hmem
      · rw [hp] at hf
        cases hf
      · exact ih ⟨e, hmem, hf⟩

lemma applyToEvents_false_struct (c : Nat) (d : List ParentLink) (g : Graph)
    (h : ∃ e ∈ g, (processEvent c d e).1 = false) :
    ∃ g1 e2 g2, g = g1 ++ e2 :: g2 ∧
      (∀ e3 ∈ g1, (processEvent c d e3).1 = true) ∧
      (processEvent c d e2).1 = false ∧
      applyToEvents c d g =
        (false, (g1.map fun e3 => (processEvent c d e3).2) ++
          (processEvent c d e2).2 :: g2) := by
  induction g with
  | nil =>
    obtain ⟨e, he, _⟩ := h
    cases he
  | cons e0 rest ih =>
    cases hp : (processEvent c d e0).1 with
    | false =>
      refine ⟨[], e0, rest, rfl, by simp, hp, ?_⟩
      simp only [applyToEvents, hp, Bool.false_eq_true, if_false, List.map_nil,
        List.nil_append]
    | true =>
      have hrest : ∃ e ∈ rest, (processEvent c d e).1 = false := by
        obtain ⟨e, he, hf⟩ := h
        rcases List.mem_cons.mp he with rfl | hm
        · rw [hp] at hf
          cases hf
        · exact ⟨e, hm, hf⟩
      obtain ⟨g1, e2, g2, hsplit, hpre, hfail, heq⟩ := ih hrest
      refine ⟨e0 :: g1, e2, g2, by rw [List.cons_append, ← hsplit], ?_, hfail, ?_⟩
      · intro e3 he3
        rcases List.mem_cons.mp he3 with rfl | hm
        · exact hp
        · exact hpre e3 hm
      · simp only [applyToEvents, hp, if_true]
        rw [heq]
        rfl

/-! ### Claim C2: switch conflicts -/

/-- C2 (counterexample to atomicity): the graph does not remain exactly as it
was when a switch conflict aborts the apply — a sequential parent visited
earlier in iteration order has already had its next pointer cleared. -/
theorem C2_counterexample :
    (applyChanges 0 [⟨2, ParentLinkType.switchCase, some 3⟩] true
        [⟨1, EventData.sequential (some 0)⟩, ⟨2, EventData.switch [(3, 5)]⟩]).1 = false ∧
    (applyChanges 0 [⟨2, ParentLinkType.switchCase, some 3⟩] true
        [⟨1, EventData.sequential (some 0)⟩, ⟨2, EventData.switch [(3, 5)]⟩]).2 ≠
      [⟨1, EventData.sequential (some 0)⟩, ⟨2, EventData.switch [(3, 5)]⟩] := by
  decide

/-- C2 (amended): if some desired link requests a switch case whose value is
already bound, in the parent's case dict, to an event other than the child,
then the apply (validation passed, overwrite confirmed) fails — but the graph
need not remain as it was: the loop stops at the first failing event, and the
returned graph is exactly the processed prefix (its mutations persist), then
the failing event in its partially processed state, then the untouched
suffix. -/
theorem C2_switch_conflict_fails (child : Nat) (desired : List ParentLink)
    (g : Graph) (eid : Nat) (cs : List (Int × Nat)) (v : Int) (t : Nat)
    (hval : isValid desired = true)
    (he : (⟨eid, EventData.switch cs⟩ : Event) ∈ g)
    (hnd : (cs.map Prod.fst).Nodup)
    (hv : v ∈ desiredSwitchValues desired eid)
    (hmem : (v, t) ∈ cs) (ht : t ≠ child) :
    ∃ g1 e2 g2, g = g1 ++ e2 :: g2 ∧
      (∀ e3 ∈ g1, (processEvent child desired e3).1 = true) ∧
      (processEvent child desired e2).1 = false ∧
      applyChanges child desired true g =
        (false, (g1.map fun e3 => (processEvent child desired e3).2) ++
          (processEvent child desired e2).2 :: g2) := by
  have hex : ∃ e ∈ g, (processEvent child desired e).1 = false := by
    refine ⟨⟨eid, EventData.switch cs⟩, he, ?_⟩
    show (applySwitchEvent child (desiredSwitchValues desired eid) cs).1 = false
    unfold applySwitchEvent
    apply addDesiredCases_fst_false
    refine ⟨v, hv, t, ?_, ht⟩
    exact lookupCase_eq_some_of_mem v t _
      (removeStaleCases_keys_nodup child _ cs hnd)
      (mem_removeStaleCases child _ cs v t hmem ht)
  obtain ⟨g1, e2, g2, hsplit, hpre, hfail, heq⟩ :=
    applyToEvents_false_struct child desired g hex
  refine ⟨g1, e2, g2, hsplit, hpre, hfail, ?_⟩
  unfold applyChanges
  rw [hval]
  simp only [Bool.not_true, Bool.and_false, Bool.false_eq_true, if_false]
  exact heq

/-- Witness for the amended C2 theorem on the counterexample instance. -/
theorem C2_switch_conflict_fails_witness :
    (isValid [⟨2, ParentLinkType.switchCase, some 3⟩] = true ∧
      (⟨2, EventData.switch [(3, 5)]⟩ : Event) ∈
        [(⟨1, EventData.sequential (some 0)⟩ : Event), ⟨2, EventData.switch [(3, 5)]⟩] ∧
      (([(3, 5)] : List (Int × Nat)).map Prod.fst).Nodup ∧
      (3 : Int) ∈ desiredSwitchValues [⟨2, ParentLinkType.switchCase, some 3⟩] 2 ∧
      ((3 : Int), (5 : Nat)) ∈ ([(3, 5)] : List (Int × Nat)) ∧ (5 : Nat) ≠ 0) ∧
    ∃ g1 e2 g2,
      [(⟨1, EventData.sequential (some 0)⟩ : Event), ⟨2, EventData.switch [(3, 5)]⟩] =
        g1 ++ e2 :: g2 ∧
      (∀ e3 ∈ g1, (processEvent 0 [⟨2, ParentLinkType.switchCase, some 3⟩] e3).1 = true) ∧
      (processEvent 0 [⟨2, ParentLinkType.switchCase, some 3⟩] e2).1 = false ∧
      applyChanges 0 [⟨2, ParentLinkType.switchCase, some 3⟩] true
          [⟨1, EventData.sequential (some 0)⟩, ⟨2, EventData.switch [(3, 5)]⟩] =
        (false, (g1.map fun e3 =>
          (processEvent 0 [⟨2, ParentLinkType.switchCase, some 3⟩] e3).2) ++
          (processEvent 0 [⟨2, ParentLinkType.switchCase, some 3⟩] e2).2 :: g2) :=
  ⟨⟨by decide, by decide, by decide, by decide, by decide, by decide⟩,
    C2_switch_conflict_fails 0 [⟨2, ParentLinkType.switchCase, some 3⟩]
      [⟨1, EventData.sequential (some 0)⟩, ⟨2, EventData.switch [(3, 5)]⟩]
      2 [(3, 5)] 3 5 (by decide) (by decide) (by decide) (by decide) (by decide)
      (by decide)⟩

/-! ### Claim C10: fork-branch entries in the transient list -/

lemma mem_gatherEventLinks_parent (c : Nat) (e : Event) (pl : ParentLink)
    (h : pl ∈ gatherEventLinks c e) : pl.parent = e.id := by
  cases e with
  | mk eid data =>
    cases data with
    | sequential nxt =>
      simp only [gatherEventLinks] at h
      split at h
      · rcases List.mem_singleton.mp h with rfl
        rfl
      · cases h
    | switch cases =>
      simp only [gatherEventLinks, List.mem_filterMap] at h
      obtain ⟨cse, _, hcse⟩ := h
      split at hcse
      · cases hcse
        rfl
      · cases hcse
    | fork forks =>
      simp only [gatherEventLinks, List.mem_filterMap] at h
      obtain ⟨f, _, hf⟩ := h
      split at hf
      · cases hf
        rfl
      · cases hf
    | other => cases h

lemma mem_gatherEventLinks_fork_detail (c : Nat) (e : Event) (pl : ParentLink)
    (h : pl ∈ gatherEventLinks c e) (hfb : pl.linkType = ParentLinkType.forkBranch) :
    pl.detail = none := by
  cases e with
  | mk eid data =>
    cases data with
    | sequential nxt =>
      simp only [gatherEventLinks] at h
      split at h
      · rcases List.mem_singleton.mp h with rfl
        rfl
      · cases h
    | switch cases =>
      simp only [gatherEventLinks, List.mem_filterMap] at h
      obtain ⟨cse, _, hcse⟩ := h
      split at hcse
      · cases hcse
        cases hfb
      · cases hcse
    | fork forks =>
      simp only [gatherEventLinks, List.mem_filterMap] at h
      obtain ⟨f, _, hf⟩ := h
      split at hf
      · cases hf
        rfl
      · cases hf
    | other => cases h

lemma mem_gather_fork_detail (c : Nat) (g : Graph) (pl : ParentLink)
    (h : pl ∈ gatherExistingLinks c g) (hfb : pl.linkType = ParentLinkType.forkBranch) :
    pl.detail = none := by
  induction g with
  | nil => cases h
  | cons e rest ih =>
    simp only [gatherExistingLinks, List.mem_append] at h
    rcases h with h | h
    · exact mem_gatherEventLinks_fork_detail c e pl h hfb
    · exact ih h

lemma linkCount_append_single (l : List ParentLink) (pl : ParentLink) (p : Nat)
    (t : ParentLinkType) :
    linkCount (l ++ [pl]) p t =
      linkCount l p t + if pl.parent = p ∧ pl.linkType = t then 1 else 0 := by
  unfold linkCount
  rw [List.filter_append, List.length_append]
  by_cases h : pl.parent = p ∧ pl.linkType = t
  · simp [h]
  · simp [h]

lemma linkCount_eraseIdx_le (l : List ParentLink) (r : Nat) (p : Nat)
    (t : ParentLinkType) : linkCount (l.eraseIdx r) p t ≤ linkCount l p t :=
  List.Sublist.length_le ((List.eraseIdx_sublist l r).filter _)

lemma exists_mem_of_linkCount_pos (l : List ParentLink) (p : Nat) (t : ParentLinkType)
    (h : 0 < linkCount l p t) :
    ∃ pl ∈ l, pl.parent = p ∧ pl.linkType = t := by
  unfold linkCount at h
  rw [List.length_pos] at h
  obtain ⟨pl, hpl⟩ := List.exists_mem_of_ne_nil _ h
  rw [List.mem_filter] at hpl
  exact ⟨pl, hpl.1, by simpa using hpl.2⟩

lemma forkCount_runEdits_le (p : Nat) (ops : List EditOp) (seed : List ParentLink)
    (hseed : ∀ pl ∈ seed, pl.parent = p → pl.linkType = ParentLinkType.forkBranch →
      pl.detail = none)
    (hops : ∀ pl, EditOp.append pl ∈ ops → pl.parent = p →
      pl.linkType = ParentLinkType.forkBranch → pl.detail = none) :
    linkCount (runEdits seed ops) p ParentLinkType.forkBranch ≤
      max (linkCount seed p ParentLinkType.forkBranch) 1 := by
  induction ops generalizing seed with
  | nil =>
    simp only [runEdits]
    exact le_max_left _ _
  | cons op rest ih =>
    have hopsrest : ∀ pl, EditOp.append pl ∈ rest → pl.parent = p →
        pl.linkType = ParentLinkType.forkBranch → pl.detail = none :=
      fun pl hm => hops pl (List.mem_cons_of_mem _ hm)
    cases op with
    | removeRow r =>
      simp only [runEdits, applyEditOp, removeRowFromModel]
      have hsub : ∀ pl ∈ seed.eraseIdx r, pl ∈ seed :=
        fun pl hm => (List.eraseIdx_sublist seed r).subset hm
      have h1 := ih (seed.eraseIdx r) (fun pl hm => hseed pl (hsub pl hm)) hopsrest
      have h2 := linkCount_eraseIdx_le seed r p ParentLinkType.forkBranch
      omega
    | append pl =>
      simp only [runEdits, applyEditOp, appendLink]
      by_cases hdup : (seed.any fun q => decide (pl = q)) = true
      · rw [if_pos hdup]
        exact ih seed hseed hopsrest
      · rw [if_neg hdup]
        have hred : ((true, seed ++ [pl]) : Bool × List ParentLink).2 = seed ++ [pl] := rfl
        rw [hred]
        by_cases hfork : pl.parent = p ∧ pl.linkType = ParentLinkType.forkBranch
        · have hdet : pl.detail = none :=
            hops pl (List.mem_cons_self _ _) hfork.1 hfork.2
          have hzero : linkCount seed p ParentLinkType.forkBranch = 0 := by
            by_contra h0
            obtain ⟨q, hq, hqp, hqt⟩ :=
              exists_mem_of_linkCount_pos seed p ParentLinkType.forkBranch
                (Nat.pos_of_ne_zero h0)
            have hqd : q.detail = none := hseed q hq hqp hqt
            have hpq : pl = q := by
              cases pl
              cases q
              simp_all
            exact hdup (List.any_eq_true.mpr ⟨q, hq, by simp [hpq]⟩)
          have hcount : linkCount (seed ++ [pl]) p ParentLinkType.forkBranch = 1 := by
            rw [linkCount_append_single, hzero, if_pos hfork]
          have hseed2 : ∀ q ∈ seed ++ [pl], q.parent = p →
              q.linkType = ParentLinkType.forkBranch → q.detail = none := by
            intro q hq hqp hqt
            rcases List.mem_append.mp hq with h | h
            · exact hseed q h hqp hqt
            · rcases List.mem_singleton.mp h with rfl
              exact hdet
          have h1 := ih (seed ++ [pl]) hseed2 hopsrest
          rw [hcount] at h1
          omega
        · have hcount : linkCount (seed ++ [pl]) p ParentLinkType.forkBranch =
              linkCount seed p ParentLinkType.forkBranch := by
            rw [linkCount_append_single, if_neg hfork]
            omega
          have hseed2 : ∀ q ∈ seed ++ [pl], q.parent = p →
              q.linkType = ParentLinkType.forkBranch → q.detail = none := by
            intro q hq hqp hqt
            rcases List.mem_append.mp hq with h | h
            · exact hseed q h hqp hqt
            · rcases List.mem_singleton.mp h with rfl
              exact absurd ⟨hqp, hqt⟩ hfork
          have h1 := ih (seed ++ [pl]) hseed2 hopsrest
          rw [hcount] at h1
          exact h1

/-- Bool form of "every appended fork-branch link carries no detail", the
shape in which `addParent` constructs fork-branch links. -/
def appendsRespectForkDetail (p : Nat) (ops : List EditOp) : Bool :=
  ops.all fun op =>
    match op with
    | EditOp.append pl =>
      !decide (pl.parent = p ∧ pl.linkType = ParentLinkType.forkBranch) ||
        decide (pl.detail = none)
    | EditOp.removeRow _ => true

lemma appendsRespectForkDetail_spec (p : Nat) (ops : List EditOp)
    (h : appendsRespectForkDetail p ops = true) :
    ∀ pl, EditOp.append pl ∈ ops → pl.parent = p →
      pl.linkType = ParentLinkType.forkBranch → pl.detail = none := by
  intro pl hm hp ht
  have := List.all_eq_true.mp h _ hm
  simp only [Bool.or_eq_true, Bool.not_eq_true', decide_eq_false_iff_not,
    decide_eq_true_eq] at this
  rcases this with h1 | h1
  · exact absurd ⟨hp, ht⟩ h1
  · exact h1

/-- C10 (counterexample to the final clause): for a fork parent with no
seeded branch to the child, a single `appendLink` of a fork-branch link
succeeds and raises the desired branch count above the seeded count. -/
theorem C10_counterexample :
    linkCount (gatherExistingLinks 0 [⟨1, EventData.fork [2]⟩]) 1
        ParentLinkType.forkBranch = 0 ∧
    (appendLink (gatherExistingLinks 0 [⟨1, EventData.fork [2]⟩])
        ⟨1, ParentLinkType.forkBranch, none⟩).1 = true ∧
    linkCount (runEdits (gatherExistingLinks 0 [⟨1, EventData.fork [2]⟩])
        [EditOp.append ⟨1, ParentLinkType.forkBranch, none⟩]) 1
        ParentLinkType.forkBranch = 1 := by
  decide

/-- C10 (amended): starting from the links seeded by the dialog-open graph
scan, any sequence of `appendLink` and `removeRow` operations (with
fork-branch links constructed, as `addParent` does, with no detail) keeps
the number of fork-branch entries per parent at or below the larger of the
seeded count and one — in particular `appendLink` can never raise it above
the seeded count when at least one branch was seeded. -/
theorem C10_fork_entries_bounded (child p : Nat) (g : Graph) (ops : List EditOp)
    (hops : appendsRespectForkDetail p ops = true) :
    linkCount (runEdits (gatherExistingLinks child g) ops) p
        ParentLinkType.forkBranch ≤
      max (linkCount (gatherExistingLinks child g) p ParentLinkType.forkBranch) 1 :=
  forkCount_runEdits_le p ops (gatherExistingLinks child g)
    (fun pl hm _ hfb => mem_gather_fork_detail child g pl hm hfb)
    (appendsRespectForkDetail_spec p ops hops)

/-- Witness for C10 on a concrete graph and edit sequence. -/
theorem C10_fork_entries_bounded_witness :
    appendsRespectForkDetail 1
        [EditOp.removeRow 0, EditOp.append ⟨1, ParentLinkType.forkBranch, none⟩] = true ∧
    linkCount (runEdits (gatherExistingLinks 0 [⟨1, EventData.fork [0, 0]⟩])
        [EditOp.removeRow 0, EditOp.append ⟨1, ParentLinkType.forkBranch, none⟩]) 1
        ParentLinkType.forkBranch ≤
      max (linkCount (gatherExistingLinks 0 [⟨1, EventData.fork [0, 0]⟩]) 1
        ParentLinkType.forkBranch) 1 :=
  ⟨by decide,
    C10_fork_entries_bounded 0 1 [⟨1, EventData.fork [0, 0]⟩]
      [EditOp.removeRow 0, EditOp.append ⟨1, ParentLinkType.forkBranch, none⟩]
      (by decide)⟩

/-! ### Characterizing a successful apply as a per-event map -/

lemma processEvent_id (c : Nat) (d : List ParentLink) (e : Event) :
    ((processEvent c d e).2).id = e.id := by
  cases e with
  | mk eid data => cases data <;> rfl

lemma applyToEvents_sound (c : Nat) (d : List ParentLink) (g g' : Graph)
    (h : applyToEvents c d g = (true, g')) :
    (∀ e ∈ g, (processEvent c d e).1 = true) ∧
      g' = g.map fun e => (processEvent c d e).2 := by
  induction g generalizing g' with
  | nil =>
    simp only [applyToEvents, Prod.mk.injEq] at h
    simp [← h.2]
  | cons e rest ih =>
    simp only [applyToEvents] at h
    cases hp : (processEvent c d e).1 with
    | false =>
      rw [hp] at h
      simp only [Bool.false_eq_true, if_false, Prod.mk.injEq] at h
      cases h.1
    | true =>
      rw [hp] at h
      simp only [if_true, Prod.mk.injEq] at h
      have hrest : applyToEvents c d rest = (true, (applyToEvents c d rest).2) := by
        rw [← h.1]
      obtain ⟨hall, hmap⟩ := ih _ hrest
      constructor
      · intro e2 he2
        rcases List.mem_cons.mp he2 with rfl | hm
        · exact hp
        · exact hall e2 hm
      · rw [← h.2, List.map_cons, ← hmap]

lemma applyToEvents_complete (c : Nat) (d : List ParentLink) (g : Graph)
    (h : ∀ e ∈ g, (processEvent c d e).1 = true) :
    applyToEvents c d g = (true, g.map fun e => (processEvent c d e).2) := by
  induction g with
  | nil => rfl
  | cons e rest ih =>
    simp only [applyToEvents]
    rw [h e (List.mem_cons_self _ _), if_pos rfl,
      ih fun e2 hm => h e2 (List.mem_cons_of_mem _ hm)]
    rfl

lemma applyChanges_true_elim (c : Nat) (d : List ParentLink) (confirm : Bool)
    (g g' : Graph) (h : applyChanges c d confirm g = (true, g')) :
    isValid d = true ∧ applyToEvents c d g = (true, g') := by
  unfold applyChanges at h
  cases hval : isValid d with
  | false =>
    rw [hval] at h
    simp only [Bool.not_false, if_true, Prod.mk.injEq] at h
    cases h.1
  | true =>
    rw [hval] at h
    simp only [Bool.not_true, Bool.false_eq_true, if_false] at h
    cases hov : needsOverwriteConfirm c d g && !confirm with
    | true =>
      rw [hov] at h
      simp only [if_true, Prod.mk.injEq] at h
      cases h.1
    | false =>
      rw [hov] at h
      simp only [Bool.false_eq_true, if_false] at h
      exact ⟨rfl, h⟩

lemma applyChanges_true_map (c : Nat) (d : List ParentLink) (confirm : Bool)
    (g g' : Graph) (h : applyChanges c d confirm g = (true, g')) :
    g' = g.map fun e => (processEvent c d e).2 :=
  (applyToEvents_sound c d g g' (applyChanges_true_elim c d confirm g g' h).2).2

/-! ### Claim C5: the sequential-parent rule -/

/-- C5: during a successful apply, a sequential event's next pointer becomes
the child if the event has a desired Next link; otherwise it is cleared if it
currently equals the child, and left untouched otherwise. -/
theorem C5_sequential_next_rule (child : Nat) (desired : List ParentLink)
    (confirm : Bool) (g g' : Graph)
    (h : applyChanges child desired confirm g = (true, g'))
    (i : Nat) (hi : i < g.length) (nxt : Option Nat)
    (hdata : (g.get ⟨i, hi⟩).data = EventData.sequential nxt) :
    ∃ hj : i < g'.length,
      (g'.get ⟨i, hj⟩).data = EventData.sequential
        (if wantsNext desired (g.get ⟨i, hi⟩).id then some child
         else if nxt = some child then none
         else nxt) := by
  have hmap := applyChanges_true_map child desired confirm g g' h
  subst hmap
  have hj : i < (g.map fun e => (processEvent child desired e).2).length := by
    simpa using hi
  refine ⟨hj, ?_⟩
  rw [List.get_map]
  rcases hge : g.get ⟨i, hi⟩ with ⟨eid, edata⟩
  rw [hge] at hdata
  simp only at hdata
  subst hdata
  rfl

/-- Witness for C5: a parent whose next pointer is overwritten. -/
theorem C5_sequential_next_rule_witness :
    (applyChanges 0 [⟨1, ParentLinkType.next, none⟩] true
        [⟨1, EventData.sequential (some 9)⟩]
      = (true, [⟨1, EventData.sequential (some 0)⟩]) ∧
      0 < [(⟨1, EventData.sequential (some 9)⟩ : Event)].length ∧
      (([(⟨1, EventData.sequential (some 9)⟩ : Event)].get
          ⟨0, by decide⟩).data = EventData.sequential (some 9))) ∧
    ∃ hj : 0 < [(⟨1, EventData.sequential (some 0)⟩ : Event)].length,
      (([(⟨1, EventData.sequential (some 0)⟩ : Event)].get ⟨0, hj⟩).data =
        EventData.sequential
          (if wantsNext [⟨1, ParentLinkType.next, none⟩]
              (([(⟨1, EventData.sequential (some 9)⟩ : Event)].get
                ⟨0, by decide⟩).id) then some 0
           else if (some 9 : Option Nat) = some 0 then none
           else some 9)) :=
  ⟨⟨by decide, by decide, by decide⟩,
    C5_sequential_next_rule 0 [⟨1, ParentLinkType.next, none⟩] true
      [⟨1, EventData.sequential (some 9)⟩] [⟨1, EventData.sequential (some 0)⟩]
      (by decide) 0 (by decide) (some 9) (by decide)⟩

/-! ### Lemmas about the fork branch of the apply loop -/

lemma countChild_append (c : Nat) (a b : List Nat) :
    countChild c (a ++ b) = countChild c a + countChild c b := by
  unfold countChild
  rw [List.filter_append, List.length_append]

lemma countChild_filter_ne (c : Nat) (v : List Nat) :
    countChild c (v.filter fun f => decide (f ≠ c)) = 0 := by
  unfold countChild
  rw [List.length_eq_zero]
  rw [List.filter_eq_nil]
  intro a ha
  rw [List.mem_filter] at ha
  simp only [decide_eq_true_eq] at ha ⊢
  exact ha.2

lemma countChild_replicate (c : Nat) (n : Nat) :
    countChild c (List.replicate n c) = n := by
  induction n with
  | zero => rfl
  | succ k ih =>
    rw [List.replicate_succ]
    unfold countChild at ih ⊢
    simp [List.filter_cons, ih]

lemma filter_ne_replicate (c : Nat) (n : Nat) :
    (List.replicate n c).filter (fun f => decide (f ≠ c)) = [] := by
  rw [List.filter_eq_nil]
  intro a ha
  rw [List.eq_of_mem_replicate ha]
  simp

lemma keepFirstBranches_zero (c : Nat) (fs : List Nat) :
    keepFirstBranches c 0 fs = fs.filter fun f => decide (f ≠ c) := by
  induction fs with
  | nil => rfl
  | cons f rest ih =>
    simp only [keepFirstBranches, List.filter_cons]
    by_cases hf : f ≠ c
    · rw [if_pos hf, ih]
      simp [hf]
    · rw [if_neg hf]
      simp only [gt_iff_lt, lt_self_iff_false, if_false, ih]
      simp [hf]

lemma keepFirstBranches_split (c : Nat) (d : Nat) (fs : List Nat)
    (h : d ≤ countChild c fs) :
    ∃ u v, fs = u ++ v ∧ countChild c u = d ∧
      keepFirstBranches c d fs = u ++ v.filter fun f => decide (f ≠ c) := by
  induction fs generalizing d with
  | nil =>
    have hd : d = 0 := by
      simpa [countChild] using h
    subst hd
    exact ⟨[], [], rfl, rfl, rfl⟩
  | cons f rest ih =>
    by_cases hf : f = c
    · subst hf
      cases d with
      | zero =>
        refine ⟨[], f :: rest, rfl, rfl, ?_⟩
        rw [keepFirstBranches_zero]
        rfl
      | succ d2 =>
        have hle : d2 ≤ countChild f rest := by
          have : countChild f (f :: rest) = countChild f rest + 1 := by
            unfold countChild
            simp [List.filter_cons]
          omega
        obtain ⟨u, v, hsplit, hcount, hkeep⟩ := ih d2 hle
        refine ⟨f :: u, v, by rw [List.cons_append, ← hsplit], ?_, ?_⟩
        · unfold countChild at hcount ⊢
          simp [List.filter_cons, hcount]
        · simp only [keepFirstBranches, ne_eq, not_true_eq_false, if_false,
            gt_iff_lt, Nat.succ_sub_one]
          rw [if_pos (Nat.succ_pos d2), hkeep]
          rfl
    · have hle : d ≤ countChild c rest := by
        have : countChild c (f :: rest) = countChild c rest := by
          unfold countChild
          simp [List.filter_cons, hf]
        omega
      obtain ⟨u, v, hsplit, hcount, hkeep⟩ := ih d hle
      refine ⟨f :: u, v, by rw [List.cons_append, ← hsplit], ?_, ?_⟩
      · unfold countChild at hcount ⊢
        simp [List.filter_cons, hf, hcount]
      · simp only [keepFirstBranches, ne_eq, hf, not_false_eq_true, if_true]
        rw [hkeep]
        rfl

lemma countChild_applyForkEvent (c d : Nat) (fs : List Nat) :
    countChild c (applyForkEvent c d fs) = d := by
  simp only [applyForkEvent]
  by_cases h1 : d < countChild c fs
  · rw [if_pos h1]
    obtain ⟨u, v, _, hcount, hkeep⟩ :=
      keepFirstBranches_split c d fs (Nat.le_of_lt h1)
    rw [hkeep, countChild_append, hcount, countChild_filter_ne]
    omega
  · rw [if_neg h1]
    by_cases h2 : countChild c fs < d
    · rw [if_pos h2, countChild_append, countChild_replicate]
      omega
    · rw [if_neg h2]
      omega

lemma filter_ne_applyForkEvent (c d : Nat) (fs : List Nat) :
    (applyForkEvent c d fs).filter (fun f => decide (f ≠ c)) =
      fs.filter fun f => decide (f ≠ c) := by
  simp only [applyForkEvent]
  by_cases h1 : d < countChild c fs
  · rw [if_pos h1]
    obtain ⟨u, v, hsplit, _, hkeep⟩ :=
      keepFirstBranches_split c d fs (Nat.le_of_lt h1)
    rw [hkeep, hsplit, List.filter_append, List.filter_append, List.filter_filter]
    simp
  · rw [if_neg h1]
    by_cases h2 : countChild c fs < d
    · rw [if_pos h2, List.filter_append, filter_ne_replicate, List.append_nil]
    · rw [if_neg h2]

/-! ### Claim C6: the fork-parent rule -/

/-- C6: during a successful apply, a fork event's branch list keeps every
branch not targeting the child in order, ends up with exactly the desired
number of child-targeting branches, and: when too many exist the trailing
excess child entries are dropped (the first `desired` child occurrences are
kept), when too few exist the missing entries are appended at the end, and
when the counts agree the branch list is unchanged. -/
theorem C6_fork_branch_rule (child : Nat) (desired : List ParentLink)
    (confirm : Bool) (g g' : Graph)
    (h : applyChanges child desired confirm g = (true, g'))
    (i : Nat) (hi : i < g.length) (fs : List Nat)
    (hdata : (g.get ⟨i, hi⟩).data = EventData.fork fs) :
    ∃ hj : i < g'.length, ∃ fs',
      (g'.get ⟨i, hj⟩).data = EventData.fork fs' ∧
      fs'.filter (fun f => decide (f ≠ child)) =
        fs.filter (fun f => decide (f ≠ child)) ∧
      countChild child fs' =
        linkCount desired (g.get ⟨i, hi⟩).id ParentLinkType.forkBranch ∧
      (linkCount desired (g.get ⟨i, hi⟩).id ParentLinkType.forkBranch <
          countChild child fs →
        ∃ u v, fs = u ++ v ∧
          countChild child u =
            linkCount desired (g.get ⟨i, hi⟩).id ParentLinkType.forkBranch ∧
          fs' = u ++ v.filter fun f => decide (f ≠ child)) ∧
      (countChild child fs <
          linkCount desired (g.get ⟨i, hi⟩).id ParentLinkType.forkBranch →
        fs' = fs ++ List.replicate
          (linkCount desired (g.get ⟨i, hi⟩).id ParentLinkType.forkBranch -
            countChild child fs) child) ∧
      (linkCount desired (g.get ⟨i, hi⟩).id ParentLinkType.forkBranch =
          countChild child fs →
        fs' = fs) := by
  have hmap := applyChanges_true_map child desired confirm g g' h
  subst hmap
  have hj : i < (g.map fun e => (processEvent child desired e).2).length := by
    simpa using hi
  refine ⟨hj, ?_⟩
  rw [List.get_map]
  rcases hge : g.get ⟨i, hi⟩ with ⟨eid, edata⟩
  rw [hge] at hdata
  simp only at hdata
  subst hdata
  dsimp only
  refine ⟨applyForkEvent child (linkCount desired eid ParentLinkType.forkBranch) fs,
    rfl, filter_ne_applyForkEvent child _ fs, countChild_applyForkEvent child _ fs,
    ?_, ?_, ?_⟩
  · intro hlt
    obtain ⟨u, v, hsplit, hcount, hkeep⟩ :=
      keepFirstBranches_split child _ fs (Nat.le_of_lt hlt)
    refine ⟨u, v, hsplit, hcount, ?_⟩
    simp only [applyForkEvent]
    rw [if_pos hlt, hkeep]
  · intro hgt
    simp only [applyForkEvent]
    rw [if_neg (by omega), if_pos hgt]
  · intro heq
    simp only [applyForkEvent]
    rw [if_neg (by omega), if_neg (by omega)]

/-- Witness for C6: trimming a fork's two child branches down to one. -/
theorem C6_fork_branch_rule_witness :
    (applyChanges 0 [⟨1, ParentLinkType.forkBranch, none⟩] true
        [⟨1, EventData.fork [0, 7, 0]⟩]
      = (true, [⟨1, EventData.fork [0, 7]⟩]) ∧
      0 < [(⟨1, EventData.fork [0, 7, 0]⟩ : Event)].length ∧
      ([(⟨1, EventData.fork [0, 7, 0]⟩ : Event)].get ⟨0, by decide⟩).data =
        EventData.fork [0, 7, 0]) ∧
    ∃ hj : 0 < [(⟨1, EventData.fork [0, 7]⟩ : Event)].length, ∃ fs',
      (([(⟨1, EventData.fork [0, 7]⟩ : Event)].get ⟨0, hj⟩).data =
        EventData.fork fs') ∧
      fs'.filter (fun f => decide (f ≠ 0)) =
        ([0, 7] : List Nat).filter (fun f => decide (f ≠ 0)) ++ [] ∧
      True := by
  refine ⟨⟨by decide, by decide, by decide⟩, ?_⟩
  obtain ⟨hj, fs', h1, h2, -⟩ :=
    C6_fork_branch_rule 0 [⟨1, ParentLinkType.forkBranch, none⟩] true
      [⟨1, EventData.fork [0, 7, 0]⟩] [⟨1, EventData.fork [0, 7]⟩]
      (by decide) 0 (by decide) [0, 7, 0] (by decide)
  refine ⟨hj, fs', h1, ?_, trivial⟩
  rw [h2]
  decide

/-! ### Frame lemmas: what the apply loop leaves untouched -/

lemma removeStaleCases_filter_ne (c : Nat) (vs : List Int) (cs : List (Int × Nat)) :
    (removeStaleCases c vs cs).filter (fun x => decide (x.2 ≠ c)) =
      cs.filter fun x => decide (x.2 ≠ c) := by
  unfold removeStaleCases
  rw [List.filter_filter]
  apply List.filter_congr
  intro x hx
  by_cases hxc : x.2 = c
  · simp [hxc]
  · simp [hxc]

lemma addDesiredCases_filter_ne (c : Nat) (vs : List Int) (cs : List (Int × Nat)) :
    ((addDesiredCases c vs cs).2).filter (fun x => decide (x.2 ≠ c)) =
      cs.filter fun x => decide (x.2 ≠ c) := by
  induction vs generalizing cs with
  | nil => rfl
  | cons v rest ih =>
    unfold addDesiredCases
    cases hl : lookupCase v cs with
    | some t =>
      simp only
      by_cases htc : t = c
      · rw [if_pos htc]
        exact ih cs
      · rw [if_neg htc]
    | none =>
      simp only
      rw [ih (cs ++ [(v, c)]), List.filter_append]
      simp

lemma applySwitchEvent_filter_ne (c : Nat) (vs : List Int) (cs : List (Int × Nat)) :
    ((applySwitchEvent c vs cs).2).filter (fun x => decide (x.2 ≠ c)) =
      cs.filter fun x => decide (x.2 ≠ c) := by
  unfold applySwitchEvent
  rw [addDesiredCases_filter_ne, removeStaleCases_filter_ne]

lemma wantsNext_eq_false_of (d : List ParentLink) (p : Nat)
    (h : ∀ pl ∈ d, pl.parent ≠ p) : wantsNext d p = false := by
  rw [wantsNext]
  rw [List.any_eq_false]
  intro pl hpl
  simp only [decide_eq_true_eq, not_and]
  exact fun hp => absurd hp (h pl hpl)

lemma desiredSwitchValues_eq_nil_of (d : List ParentLink) (p : Nat)
    (h : ∀ pl ∈ d, pl.parent ≠ p) : desiredSwitchValues d p = [] := by
  rw [desiredSwitchValues, List.filterMap_eq_nil]
  intro pl hpl
  rw [if_neg]
  exact fun hc => h pl hpl hc.1

lemma linkCount_eq_zero_of (d : List ParentLink) (p : Nat) (t : ParentLinkType)
    (h : ∀ pl ∈ d, pl.parent ≠ p) : linkCount d p t = 0 := by
  unfold linkCount
  rw [List.length_eq_zero, List.filter_eq_nil]
  intro pl hpl
  simp only [decide_eq_true_eq, not_and]
  exact fun hp => absurd hp (h pl hpl)

lemma removeStaleCases_eq_self_of (c : Nat) (vs : List Int) (cs : List (Int × Nat))
    (h : ∀ x ∈ cs, x.2 ≠ c) : removeStaleCases c vs cs = cs := by
  rw [removeStaleCases, List.filter_eq_self]
  intro x hx
  simp [h x hx]

lemma countChild_eq_zero_of (c : Nat) (fs : List Nat) (h : ∀ f ∈ fs, f ≠ c) :
    countChild c fs = 0 := by
  unfold countChild
  rw [List.length_eq_zero, List.filter_eq_nil]
  intro f hf
  simpa using h f hf

lemma processEvent_frame (c : Nat) (d : List ParentLink) (e : Event)
    (hnp : ∀ pl ∈ d, pl.parent ≠ e.id)
    (hnl : notLinkedToChild c e = true) :
    processEvent c d e = (true, e) := by
  rcases e with ⟨eid, edata⟩
  simp only at hnp
  cases edata with
  | sequential nxt =>
    have hw : wantsNext d eid = false := wantsNext_eq_false_of d eid hnp
    have hnx : ¬ (nxt = some c) := by
      simpa [notLinkedToChild] using hnl
    simp [processEvent, applyNext, hw, hnx]
  | switch cs =>
    have hv : desiredSwitchValues d eid = [] := desiredSwitchValues_eq_nil_of d eid hnp
    have hcs : ∀ x ∈ cs, x.2 ≠ c := by
      simp only [notLinkedToChild, List.all_eq_true, decide_eq_true_eq] at hnl
      intro x hx
      exact hnl x hx
    simp only [processEvent, applySwitchEvent, hv,
      removeStaleCases_eq_self_of c [] cs hcs, addDesiredCases]
  | fork fs =>
    have hlc : linkCount d eid ParentLinkType.forkBranch = 0 :=
      linkCount_eq_zero_of d eid _ hnp
    have hfs : countChild c fs = 0 := by
      apply countChild_eq_zero_of
      simp only [notLinkedToChild, List.all_eq_true, decide_eq_true_eq] at hnl
      intro f hf
      simp_all
    simp [processEvent, applyForkEvent, hlc, hfs]
  | other => rfl

/-! ### Claim C9: the frame condition -/

/-- C9: a successful apply leaves untouched (1) every event that is neither a
parent of a desired link nor currently linked to the child, and (2) the
switch cases and fork branches of every event that target events other than
the child (in order).  The graph's length is also preserved. -/
theorem C9_frame_condition (child : Nat) (desired : List ParentLink)
    (confirm : Bool) (g g' : Graph)
    (h : applyChanges child desired confirm g = (true, g')) :
    g'.length = g.length ∧
    (∀ i (hi : i < g.length) (hj : i < g'.length),
      (∀ pl ∈ desired, pl.parent ≠ (g.get ⟨i, hi⟩).id) →
      notLinkedToChild child (g.get ⟨i, hi⟩) = true →
      g'.get ⟨i, hj⟩ = g.get ⟨i, hi⟩) ∧
    (∀ i (hi : i < g.length) (hj : i < g'.length) (cs : List (Int × Nat)),
      (g.get ⟨i, hi⟩).data = EventData.switch cs →
      ∃ cs', (g'.get ⟨i, hj⟩).data = EventData.switch cs' ∧
        cs'.filter (fun x => decide (x.2 ≠ child)) =
          cs.filter fun x => decide (x.2 ≠ child)) ∧
    (∀ i (hi : i < g.length) (hj : i < g'.length) (fs : List Nat),
      (g.get ⟨i, hi⟩).data = EventData.fork fs →
      ∃ fs', (g'.get ⟨i, hj⟩).data = EventData.fork fs' ∧
        fs'.filter (fun f => decide (f ≠ child)) =
          fs.filter fun f => decide (f ≠ child)) := by
  have hmap := applyChanges_true_map child desired confirm g g' h
  subst hmap
  refine ⟨by simp, ?_, ?_, ?_⟩
  · intro i hi hj hnp hnl
    rw [List.get_map]
    rw [processEvent_frame child desired _ hnp hnl]
  · intro i hi hj cs hdata
    rw [List.get_map]
    rcases hge : g.get ⟨i, hi⟩ with ⟨eid, edata⟩
    rw [hge] at hdata
    simp only at hdata
    subst hdata
    exact ⟨(applySwitchEvent child (desiredSwitchValues desired eid) cs).2, rfl,
      applySwitchEvent_filter_ne child _ cs⟩
  · intro i hi hj fs hdata
    rw [List.get_map]
    rcases hge : g.get ⟨i, hi⟩ with ⟨eid, edata⟩
    rw [hge] at hdata
    simp only at hdata
    subst hdata
    exact ⟨applyForkEvent child (linkCount desired eid ParentLinkType.forkBranch) fs,
      rfl, filter_ne_applyForkEvent child _ fs⟩

/-- Witness for C9: an unrelated event survives a successful apply. -/
theorem C9_frame_condition_witness :
    applyChanges 0 [⟨2, ParentLinkType.switchCase, some 1⟩] true
        [⟨1, EventData.sequential (some 5)⟩, ⟨2, EventData.switch [(1, 0), (2, 0), (3, 9)]⟩]
      = (true,
        [⟨1, EventData.sequential (some 5)⟩, ⟨2, EventData.switch [(1, 0), (3, 9)]⟩]) ∧
    ([⟨1, EventData.sequential (some 5)⟩, ⟨2, EventData.switch [(1, 0), (3, 9)]⟩] :
        Graph).length =
      ([⟨1, EventData.sequential (some 5)⟩,
        ⟨2, EventData.switch [(1, 0), (2, 0), (3, 9)]⟩] : Graph).length :=
  ⟨by decide,
    (C9_frame_condition 0 [⟨2, ParentLinkType.switchCase, some 1⟩] true
      [⟨1, EventData.sequential (some 5)⟩, ⟨2, EventData.switch [(1, 0), (2, 0), (3, 9)]⟩]
      [⟨1, EventData.sequential (some 5)⟩, ⟨2, EventData.switch [(1, 0), (3, 9)]⟩]
      (by decide)).1⟩

/-! ### More lemmas about case lookup and the case-addition loop -/

lemma lookupCase_eq_none_iff (v : Int) (cs : List (Int × Nat)) :
    lookupCase v cs = none ↔ v ∉ cs.map Prod.fst := by
  induction cs with
  | nil => simp [lookupCase]
  | cons ch rest ih =>
    simp only [lookupCase, List.map_cons, List.mem_cons]
    by_cases hc : ch.1 = v
    · simp [hc]
    · simp only [if_neg hc, ih]
      constructor
      · intro h hv
        rcases hv with hv | hv
        · exact hc hv.symm
        · exact h hv
      · intro h hv
        exact h (Or.inr hv)

lemma lookupCase_mem (v : Int) (t : Nat) (cs : List (Int × Nat))
    (h : lookupCase v cs = some t) : (v, t) ∈ cs := by
  induction cs with
  | nil => cases h
  | cons ch rest ih =>
    simp only [lookupCase] at h
    by_cases hc : ch.1 = v
    · rw [if_pos hc] at h
      cases h
      exact List.mem_cons.mpr (Or.inl (by rw [← hc]))
    · rw [if_neg hc] at h
      exact List.mem_cons_of_mem _ (ih h)

lemma lookupCase_append_none (v : Int) (cs ds : List (Int × Nat))
    (h : lookupCase v cs = none) : lookupCase v (cs ++ ds) = lookupCase v ds := by
  induction cs with
  | nil => rfl
  | cons ch rest ih =>
    simp only [lookupCase] at h
    rw [List.cons_append]
    simp only [lookupCase]
    by_cases hc : ch.1 = v
    · rw [if_pos hc] at h
      cases h
    · rw [if_neg hc] at h ⊢
      exact ih h

lemma addDesiredCases_noop (c : Nat) (vs : List Int) (cs : List (Int × Nat))
    (h : ∀ v ∈ vs, lookupCase v cs = some c) :
    addDesiredCases c vs cs = (true, cs) := by
  induction vs with
  | nil => rfl
  | cons v rest ih =>
    simp only [addDesiredCases]
    rw [h v (List.mem_cons_self _ _)]
    simp only [if_pos rfl]
    exact ih fun w hw => h w (List.mem_cons_of_mem _ hw)

lemma addDesiredCases_fst_true (c : Nat) (vs : List Int) (cs : List (Int × Nat))
    (h : ∀ v ∈ vs, lookupCase v cs = none ∨ lookupCase v cs = some c) :
    (addDesiredCases c vs cs).1 = true := by
  induction vs generalizing cs with
  | nil => rfl
  | cons v rest ih =>
    simp only [addDesiredCases]
    rcases h v (List.mem_cons_self _ _) with hl | hl
    · rw [hl]
      apply ih
      intro w hw
      cases hw2 : lookupCase w cs with
      | some t =>
        rcases h w (List.mem_cons_of_mem _ hw) with h2 | h2
        · rw [hw2] at h2
          cases h2
        · rw [hw2] at h2
          right
          rw [lookupCase_append_some w cs [(v, c)] t hw2]
          rw [← h2]
      | none =>
        rw [lookupCase_append_none w cs [(v, c)] hw2]
        simp only [lookupCase]
        by_cases hwv : v = w
        · right
          rw [if_pos hwv]
        · left
          rw [if_neg hwv]
    · rw [hl]
      simp only [if_pos rfl]
      exact ih cs fun w hw => h w (List.mem_cons_of_mem _ hw)

lemma addDesiredCases_mem_mono (c : Nat) (vs : List Int) (cs : List (Int × Nat))
    (x : Int × Nat) (h : x ∈ cs) : x ∈ (addDesiredCases c vs cs).2 := by
  induction vs generalizing cs with
  | nil => exact h
  | cons v rest ih =>
    simp only [addDesiredCases]
    cases hl : lookupCase v cs with
    | some t =>
      simp only
      by_cases htc : t = c
      · rw [if_pos htc]
        exact ih cs h
      · rw [if_neg htc]
        exact h
    | none =>
      simp only
      exact ih (cs ++ [(v, c)]) (List.mem_append_left _ h)

lemma addDesiredCases_mem_inv (c : Nat) (vs : List Int) (cs : List (Int × Nat))
    (x : Int × Nat) (h : x ∈ (addDesiredCases c vs cs).2) :
    x ∈ cs ∨ (x.1 ∈ vs ∧ x.2 = c) := by
  induction vs generalizing cs with
  | nil => exact Or.inl h
  | cons v rest ih =>
    simp only [addDesiredCases] at h
    cases hl : lookupCase v cs with
    | some t =>
      rw [hl] at h
      simp only at h
      by_cases htc : t = c
      · rw [if_pos htc] at h
        rcases ih cs h with h2 | h2
        · exact Or.inl h2
        · exact Or.inr ⟨List.mem_cons_of_mem _ h2.1, h2.2⟩
      · rw [if_neg htc] at h
        exact Or.inl h
    | none =>
      rw [hl] at h
      simp only at h
      rcases ih (cs ++ [(v, c)]) h with h2 | h2
      · rcases List.mem_append.mp h2 with h3 | h3
        · exact Or.inl h3
        · rcases List.mem_singleton.mp h3 with rfl
          exact Or.inr ⟨List.mem_cons_self _ _, rfl⟩
      · exact Or.inr ⟨List.mem_cons_of_mem _ h2.1, h2.2⟩

lemma addDesiredCases_lookup_stable (c : Nat) (vs : List Int) (cs : List (Int × Nat))
    (v : Int) (h : lookupCase v cs = some c) :
    lookupCase v (addDesiredCases c vs cs).2 = some c := by
  induction vs generalizing cs with
  | nil => exact h
  | cons w rest ih =>
    simp only [addDesiredCases]
    cases hl : lookupCase w cs with
    | some t =>
      simp only
      by_cases htc : t = c
      · rw [if_pos htc]
        exact ih cs h
      · rw [if_neg htc]
        exact h
    | none =>
      simp only
      exact ih (cs ++ [(w, c)]) (lookupCase_append_some v cs [(w, c)] c h)

lemma addDesiredCases_lookup_of_mem (c : Nat) (vs : List Int) (cs : List (Int × Nat))
    (v : Int) (hok : (addDesiredCases c vs cs).1 = true) (hv : v ∈ vs) :
    lookupCase v (addDesiredCases c vs cs).2 = some c := by
  induction vs generalizing cs with
  | nil => cases hv
  | cons w rest ih =>
    simp only [addDesiredCases] at hok ⊢
    cases hl : lookupCase w cs with
    | some t =>
      rw [hl] at hok
      simp only at hok ⊢
      by_cases htc : t = c
      · rw [if_pos htc] at hok ⊢
        by_cases hvw : v = w
        · subst hvw
          rw [htc] at hl
          exact addDesiredCases_lookup_stable c rest cs v hl
        · rcases List.mem_cons.mp hv with h2 | h2
          · exact absurd h2 hvw
          · exact ih cs hok h2
      · rw [if_neg htc] at hok
        cases hok
    | none =>
      rw [hl] at hok
      simp only at hok ⊢
      by_cases hvw : v = w
      · subst hvw
        apply addDesiredCases_lookup_stable
        rw [lookupCase_append_none v cs [(v, c)] hl]
        simp [lookupCase]
      · rcases List.mem_cons.mp hv with h2 | h2
        · exact absurd h2 hvw
        · exact ih (cs ++ [(w, c)]) hok h2

lemma addDesiredCases_keys_nodup (c : Nat) (vs : List Int) (cs : List (Int × Nat))
    (hnd : (cs.map Prod.fst).Nodup) :
    (((addDesiredCases c vs cs).2).map Prod.fst).Nodup := by
  induction vs generalizing cs with
  | nil => exact hnd
  | cons v rest ih =>
    simp only [addDesiredCases]
    cases hl : lookupCase v cs with
    | some t =>
      simp only
      by_cases htc : t = c
      · rw [if_pos htc]
        exact ih cs hnd
      · rw [if_neg htc]
        exact hnd
    | none =>
      simp only
      apply ih
      rw [List.map_append]
      rw [List.nodup_append]
      refine ⟨hnd, by simp, ?_⟩
      intro a ha hb
      simp only [List.map_cons, List.map_nil, List.mem_singleton] at hb
      exact (lookupCase_eq_none_iff v cs).mp hl (hb ▸ ha)

lemma mem_of_mem_removeStaleCases (c : Nat) (vs : List Int) (cs : List (Int × Nat))
    (x : Int × Nat) (h : x ∈ removeStaleCases c vs cs) : x ∈ cs :=
  (List.filter_sublist cs).subset h

lemma removeStaleCases_eq_self_of_desired (c : Nat) (vs : List Int)
    (cs : List (Int × Nat)) (h : ∀ x ∈ cs, x.2 = c → x.1 ∈ vs) :
    removeStaleCases c vs cs = cs := by
  rw [removeStaleCases, List.filter_eq_self]
  intro x hx
  simp only [Bool.not_eq_true', decide_eq_false_iff_not]
  rintro ⟨hxc, hnv⟩
  exact hnv (h x hx hxc)

lemma applySwitchEvent_fst_true (c : Nat) (vs : List Int) (cs : List (Int × Nat))
    (hcf : ∀ v ∈ vs, ∀ t, (v, t) ∈ cs → t = c) :
    (applySwitchEvent c vs cs).1 = true := by
  unfold applySwitchEvent
  apply addDesiredCases_fst_true
  intro v hv
  cases hl : lookupCase v (removeStaleCases c vs cs) with
  | none => exact Or.inl rfl
  | some t =>
    right
    have hmem := mem_of_mem_removeStaleCases c vs cs (v, t) (lookupCase_mem v t _ hl)
    rw [hcf v hv t hmem]

lemma applySwitchEvent_mem_child_of (c : Nat) (vs : List Int) (cs : List (Int × Nat))
    (v : Int) (hok : (applySwitchEvent c vs cs).1 = true) (hv : v ∈ vs) :
    (v, c) ∈ (applySwitchEvent c vs cs).2 :=
  lookupCase_mem v c _ (addDesiredCases_lookup_of_mem c vs _ v hok hv)

lemma applySwitchEvent_mem_child_inv (c : Nat) (vs : List Int) (cs : List (Int × Nat))
    (v : Int) (h : (v, c) ∈ (applySwitchEvent c vs cs).2) : v ∈ vs := by
  unfold applySwitchEvent at h
  rcases addDesiredCases_mem_inv c vs _ (v, c) h with h2 | h2
  · rw [removeStaleCases, List.mem_filter] at h2
    have h3 := h2.2
    simp only [Bool.not_eq_true', decide_eq_false_iff_not, not_and, not_not] at h3
    exact h3 trivial
  · exact h2.1

/-! ### Characterizing the links produced by the graph scan -/

lemma mem_gather_iff (c : Nat) (g : Graph) (pl : ParentLink) :
    pl ∈ gatherExistingLinks c g ↔ ∃ e ∈ g, pl ∈ gatherEventLinks c e := by
  induction g with
  | nil => simp [gatherExistingLinks]
  | cons e rest ih =>
    simp only [gatherExistingLinks, List.mem_append, ih, List.mem_cons]
    constructor
    · rintro (h | ⟨e2, he2, h⟩)
      · exact ⟨e, Or.inl rfl, h⟩
      · exact ⟨e2, Or.inr he2, h⟩
    · rintro ⟨e2, (rfl | he2), h⟩
      · exact Or.inl h
      · exact Or.inr ⟨e2, he2, h⟩

lemma mem_gatherEventLinks_next_char (c : Nat) (e : Event) (pl : ParentLink)
    (h : pl ∈ gatherEventLinks c e) (ht : pl.linkType = ParentLinkType.next) :
    pl = ⟨e.id, ParentLinkType.next, none⟩ ∧ e.data = EventData.sequential (some c) := by
  rcases e with ⟨eid, edata⟩
  cases edata with
  | sequential nxt =>
    simp only [gatherEventLinks] at h
    split at h
    · next hnxt =>
      rcases List.mem_singleton.mp h with rfl
      exact ⟨rfl, by rw [hnxt]⟩
    · cases h
  | switch cases =>
    simp only [gatherEventLinks, List.mem_filterMap] at h
    obtain ⟨x, _, hx⟩ := h
    split at hx
    · cases hx
      cases ht
    · cases hx
  | fork forks =>
    simp only [gatherEventLinks, List.mem_filterMap] at h
    obtain ⟨f, _, hf⟩ := h
    split at hf
    · cases hf
      cases ht
    · cases hf
  | other => cases h

lemma mem_gatherEventLinks_sc_char (c : Nat) (e : Event) (pl : ParentLink)
    (h : pl ∈ gatherEventLinks c e) (ht : pl.linkType = ParentLinkType.switchCase) :
    ∃ cs v, e.data = EventData.switch cs ∧ (v, c) ∈ cs ∧
      pl = ⟨e.id, ParentLinkType.switchCase, some v⟩ := by
  rcases e with ⟨eid, edata⟩
  cases edata with
  | sequential nxt =>
    simp only [gatherEventLinks] at h
    split at h
    · rcases List.mem_singleton.mp h with rfl
      cases ht
    · cases h
  | switch cases =>
    simp only [gatherEventLinks, List.mem_filterMap] at h
    obtain ⟨x, hxmem, hx⟩ := h
    split at hx
    · next hxc =>
      cases hx
      exact ⟨cases, x.1, rfl, by rw [← hxc]; exact hxmem, rfl⟩
    · cases hx
  | fork forks =>
    simp only [gatherEventLinks, List.mem_filterMap] at h
    obtain ⟨f, _, hf⟩ := h
    split at hf
    · cases hf
      cases ht
    · cases hf
  | other => cases h

lemma next_mem_gatherEventLinks (c : Nat) (e : Event)
    (hd : e.data = EventData.sequential (some c)) :
    (⟨e.id, ParentLinkType.next, none⟩ : ParentLink) ∈ gatherEventLinks c e := by
  rcases e with ⟨eid, edata⟩
  simp only at hd
  subst hd
  simp [gatherEventLinks]

lemma sc_mem_gatherEventLinks (c : Nat) (e : Event) (cs : List (Int × Nat)) (v : Int)
    (hd : e.data = EventData.switch cs) (hm : (v, c) ∈ cs) :
    (⟨e.id, ParentLinkType.switchCase, some v⟩ : ParentLink) ∈ gatherEventLinks c e := by
  rcases e with ⟨eid, edata⟩
  simp only at hd
  subst hd
  simp only [gatherEventLinks, List.mem_filterMap]
  exact ⟨(v, c), hm, by simp⟩

lemma wantsNext_eq_true_iff (d : List ParentLink) (p : Nat) :
    wantsNext d p = true ↔
      ∃ pl ∈ d, pl.parent = p ∧ pl.linkType = ParentLinkType.next := by
  rw [wantsNext, List.any_eq_true]
  simp

lemma mem_desiredSwitchValues_iff (d : List ParentLink) (p : Nat) (v : Int) :
    v ∈ desiredSwitchValues d p ↔
      ∃ pl ∈ d, pl.parent = p ∧ pl.linkType = ParentLinkType.switchCase ∧
        pl.detail = some v := by
  rw [desiredSwitchValues, List.mem_filterMap]
  constructor
  · rintro ⟨pl, hpl, hf⟩
    split at hf
    · next hc => exact ⟨pl, hpl, hc.1, hc.2, hf⟩
    · cases hf
  · rintro ⟨pl, hpl, hp, ht, hdet⟩
    refine ⟨pl, hpl, ?_⟩
    rw [if_pos ⟨hp, ht⟩, hdet]

/-! ### Counting gathered links per parent -/

lemma linkCount_append (a b : List ParentLink) (p : Nat) (t : ParentLinkType) :
    linkCount (a ++ b) p t = linkCount a p t + linkCount b p t := by
  unfold linkCount
  rw [List.filter_append, List.length_append]

lemma linkCount_gather_cons (c : Nat) (e : Event) (g : Graph) (p : Nat)
    (t : ParentLinkType) :
    linkCount (gatherExistingLinks c (e :: g)) p t =
      linkCount (gatherEventLinks c e) p t + linkCount (gatherExistingLinks c g) p t := by
  rw [gatherExistingLinks, linkCount_append]

lemma linkCount_gatherEvent_ne (c : Nat) (e : Event) (p : Nat) (t : ParentLinkType)
    (h : e.id ≠ p) : linkCount (gatherEventLinks c e) p t = 0 := by
  unfold linkCount
  rw [List.length_eq_zero, List.filter_eq_nil]
  intro pl hpl
  have := mem_gatherEventLinks_parent c e pl hpl
  simp only [decide_eq_true_eq, not_and]
  intro hp
  exact absurd (this ▸ hp) h

lemma linkCount_gather_zero_of_all (c : Nat) (g : Graph) (p : Nat) (t : ParentLinkType)
    (h : ∀ e ∈ g, linkCount (gatherEventLinks c e) p t = 0) :
    linkCount (gatherExistingLinks c g) p t = 0 := by
  induction g with
  | nil => rfl
  | cons e rest ih =>
    rw [linkCount_gather_cons, h e (List.mem_cons_self _ _),
      ih fun e2 hm => h e2 (List.mem_cons_of_mem _ hm)]

lemma linkCount_gather_unique (c : Nat) (g : Graph) (e : Event) (p : Nat)
    (t : ParentLinkType) (hids : (g.map Event.id).Nodup) (he : e ∈ g) (hp : e.id = p) :
    linkCount (gatherExistingLinks c g) p t = linkCount (gatherEventLinks c e) p t := by
  induction g with
  | nil => cases he
  | cons e0 rest ih =>
    simp only [List.map_cons, List.nodup_cons] at hids
    rw [linkCount_gather_cons]
    rcases List.mem_cons.mp he with rfl | hmem
    · have hz : linkCount (gatherExistingLinks c rest) p t = 0 := by
        apply linkCount_gather_zero_of_all
        intro e2 he2
        apply linkCount_gatherEvent_ne
        intro h2
        apply hids.1
        rw [hp, ← h2]
        exact List.mem_map.mpr ⟨e2, he2, rfl⟩
      rw [hz]
      omega
    · have hz : linkCount (gatherEventLinks c e0) p t = 0 := by
        apply linkCount_gatherEvent_ne
        intro h0
        apply hids.1
        rw [h0, ← hp]
        exact List.mem_map.mpr ⟨e, hmem, rfl⟩
      rw [hz, ih hids.2 hmem]
      omega

lemma linkCount_gatherEvent_next_seq (c : Nat) (eid : Nat) (nxt : Option Nat) :
    linkCount (gatherEventLinks c ⟨eid, EventData.sequential nxt⟩) eid
        ParentLinkType.next = if nxt = some c then 1 else 0 := by
  simp only [gatherEventLinks]
  by_cases h : nxt = some c
  · rw [if_pos h, if_pos h]
    simp [linkCount]
  · rw [if_neg h, if_neg h]
    rfl

lemma linkCount_gatherEvent_next_of_switch (c : Nat) (eid : Nat)
    (cs : List (Int × Nat)) (p : Nat) :
    linkCount (gatherEventLinks c ⟨eid, EventData.switch cs⟩) p
      ParentLinkType.next = 0 := by
  unfold linkCount
  rw [List.length_eq_zero, List.filter_eq_nil]
  intro pl hpl
  simp only [gatherEventLinks, List.mem_filterMap] at hpl
  obtain ⟨x, _, hx⟩ := hpl
  split at hx
  · cases hx
    simp
  · cases hx

lemma linkCount_gatherEvent_next_of_fork (c : Nat) (eid : Nat) (fs : List Nat)
    (p : Nat) :
    linkCount (gatherEventLinks c ⟨eid, EventData.fork fs⟩) p
      ParentLinkType.next = 0 := by
  unfold linkCount
  rw [List.length_eq_zero, List.filter_eq_nil]
  intro pl hpl
  simp only [gatherEventLinks, List.mem_filterMap] at hpl
  obtain ⟨f, _, hf⟩ := hpl
  split at hf
  · cases hf
    simp
  · cases hf

lemma filterMap_fork_eq_replicate (c : Nat) (eid : Nat) (fs : List Nat) :
    (fs.filterMap fun f =>
        if f = c then
          some (⟨eid, ParentLinkType.forkBranch, none⟩ : ParentLink)
        else none) =
      List.replicate (countChild c fs)
        ⟨eid, ParentLinkType.forkBranch, none⟩ := by
  induction fs with
  | nil => rfl
  | cons f rest ih =>
    rw [List.filterMap_cons]
    unfold countChild at ih ⊢
    rw [List.filter_cons]
    by_cases hf : f = c
    · rw [if_pos hf]
      simp only [decide_eq_true_eq, if_pos hf, List.length_cons, List.replicate_succ]
      rw [ih]
    · rw [if_neg hf]
      simp only [decide_eq_true_eq, if_neg hf]
      exact ih

lemma linkCount_replicate_fork (eid : Nat) (n : Nat) :
    linkCount (List.replicate n ⟨eid, ParentLinkType.forkBranch, none⟩) eid
      ParentLinkType.forkBranch = n := by
  induction n with
  | zero => rfl
  | succ k ih =>
    rw [List.replicate_succ]
    unfold linkCount at ih ⊢
    rw [List.filter_cons]
    simp only [decide_eq_true_eq, and_self, if_pos]
    rw [List.length_cons, ih]

lemma linkCount_gatherEvent_fork (c : Nat) (eid : Nat) (fs : List Nat) :
    linkCount (gatherEventLinks c ⟨eid, EventData.fork fs⟩) eid
        ParentLinkType.forkBranch = countChild c fs := by
  show linkCount (fs.filterMap fun f =>
      if f = c then
        some (⟨eid, ParentLinkType.forkBranch, none⟩ : ParentLink)
      else none) eid ParentLinkType.forkBranch = countChild c fs
  rw [filterMap_fork_eq_replicate, linkCount_replicate_fork]

lemma linkCount_gatherEvent_fork_of_seq (c : Nat) (eid : Nat) (nxt : Option Nat)
    (p : Nat) :
    linkCount (gatherEventLinks c ⟨eid, EventData.sequential nxt⟩) p
      ParentLinkType.forkBranch = 0 := by
  simp only [gatherEventLinks]
  by_cases h : nxt = some c
  · rw [if_pos h]
    simp [linkCount]
  · rw [if_neg h]
    rfl

lemma linkCount_gatherEvent_fork_of_switch (c : Nat) (eid : Nat)
    (cs : List (Int × Nat)) (p : Nat) :
    linkCount (gatherEventLinks c ⟨eid, EventData.switch cs⟩) p
      ParentLinkType.forkBranch = 0 := by
  unfold linkCount
  rw [List.length_eq_zero, List.filter_eq_nil]
  intro pl hpl
  simp only [gatherEventLinks, List.mem_filterMap] at hpl
  obtain ⟨x, _, hx⟩ := hpl
  split at hx
  · cases hx
    simp
  · cases hx

/-! ### The gathered-link list of a well-formed graph -/

lemma event_id_inj (g : Graph) (hids : (g.map Event.id).Nodup) (e1 e2 : Event)
    (h1 : e1 ∈ g) (h2 : e2 ∈ g) (heq : e1.id = e2.id) : e1 = e2 :=
  List.inj_on_of_nodup_map hids h1 h2 heq

lemma desiredSwitchValues_append (a b : List ParentLink) (p : Nat) :
    desiredSwitchValues (a ++ b) p =
      desiredSwitchValues a p ++ desiredSwitchValues b p := by
  unfold desiredSwitchValues
  rw [List.filterMap_append]

lemma desiredSwitchValues_gatherEvent_ne (c : Nat) (e : Event) (p : Nat)
    (h : e.id ≠ p) : desiredSwitchValues (gatherEventLinks c e) p = [] := by
  apply desiredSwitchValues_eq_nil_of
  intro pl hpl hp
  exact h (by rw [← mem_gatherEventLinks_parent c e pl hpl, hp])

lemma desiredSwitchValues_gather_nil_of_all (c : Nat) (g : Graph) (p : Nat)
    (h : ∀ e ∈ g, desiredSwitchValues (gatherEventLinks c e) p = []) :
    desiredSwitchValues (gatherExistingLinks c g) p = [] := by
  induction g with
  | nil => rfl
  | cons e rest ih =>
    rw [gatherExistingLinks, desiredSwitchValues_append, h e (List.mem_cons_self _ _),
      ih fun e2 hm => h e2 (List.mem_cons_of_mem _ hm)]
    rfl

lemma desiredSwitchValues_gather_unique (c : Nat) (g : Graph) (e : Event) (p : Nat)
    (hids : (g.map Event.id).Nodup) (he : e ∈ g) (hp : e.id = p) :
    desiredSwitchValues (gatherExistingLinks c g) p =
      desiredSwitchValues (gatherEventLinks c e) p := by
  induction g with
  | nil => cases he
  | cons e0 rest ih =>
    simp only [List.map_cons, List.nodup_cons] at hids
    rw [gatherExistingLinks, desiredSwitchValues_append]
    rcases List.mem_cons.mp he with rfl | hmem
    · have hz : desiredSwitchValues (gatherExistingLinks c rest) p = [] := by
        apply desiredSwitchValues_gather_nil_of_all
        intro e2 he2
        apply desiredSwitchValues_gatherEvent_ne
        intro h2
        apply hids.1
        rw [hp, ← h2]
        exact List.mem_map.mpr ⟨e2, he2, rfl⟩
      rw [hz, List.append_nil]
    · have hz : desiredSwitchValues (gatherEventLinks c e0) p = [] := by
        apply desiredSwitchValues_gatherEvent_ne
        intro h0
        apply hids.1
        rw [h0, ← hp]
        exact List.mem_map.mpr ⟨e, hmem, rfl⟩
      rw [hz, List.nil_append, ih hids.2 hmem]

lemma mem_desiredSwitchValues_gatherEvent_switch (c : Nat) (eid : Nat)
    (cs : List (Int × Nat)) (v : Int) :
    v ∈ desiredSwitchValues
        (gatherEventLinks c ⟨eid, EventData.switch cs⟩) eid ↔ (v, c) ∈ cs := by
  rw [mem_desiredSwitchValues_iff]
  constructor
  · rintro ⟨pl, hpl, hp, ht, hdet⟩
    obtain ⟨cs2, v2, hd2, hm2, rfl⟩ :=
      mem_gatherEventLinks_sc_char c ⟨eid, EventData.switch cs⟩ pl hpl ht
    simp only at hd2
    cases hd2
    simp only at hdet
    cases hdet
    exact hm2
  · intro hm
    exact ⟨⟨eid, ParentLinkType.switchCase, some v⟩,
      sc_mem_gatherEventLinks c ⟨eid, EventData.switch cs⟩ cs v rfl hm, rfl, rfl, rfl⟩

lemma wantsNext_gather_iff (c : Nat) (g : Graph) (e : Event)
    (hids : (g.map Event.id).Nodup) (he : e ∈ g) :
    wantsNext (gatherExistingLinks c g) e.id = true ↔
      e.data = EventData.sequential (some c) := by
  rw [wantsNext_eq_true_iff]
  constructor
  · rintro ⟨pl, hpl, hp, ht⟩
    obtain ⟨e2, he2, hpl2⟩ := (mem_gather_iff c g pl).mp hpl
    obtain ⟨hpl3, hd2⟩ := mem_gatherEventLinks_next_char c e2 pl hpl2 ht
    have hide : e2.id = e.id := by
      rw [← hp, hpl3]
    have : e2 = e := event_id_inj g hids e2 e he2 he hide
    rw [← this]
    exact hd2
  · intro hd
    exact ⟨⟨e.id, ParentLinkType.next, none⟩,
      (mem_gather_iff c g _).mpr ⟨e, he, next_mem_gatherEventLinks c e hd⟩, rfl, rfl⟩

/-! ### Validity of the gathered-link list -/

lemma collectSwitchKeys_append (a b : List ParentLink) :
    collectSwitchKeys (a ++ b) = collectSwitchKeys a ++ collectSwitchKeys b := by
  unfold collectSwitchKeys
  rw [List.filterMap_append]

lemma mem_collectSwitchKeys_iff (l : List ParentLink) (k : Nat × Option Int) :
    k ∈ collectSwitchKeys l ↔
      ∃ pl ∈ l, pl.linkType = ParentLinkType.switchCase ∧
        k = (pl.parent, pl.detail) := by
  rw [collectSwitchKeys, List.mem_filterMap]
  constructor
  · rintro ⟨pl, hpl, hf⟩
    split at hf
    · next hc =>
      cases hf
      exact ⟨pl, hpl, hc, rfl⟩
    · cases hf
  · rintro ⟨pl, hpl, ht, rfl⟩
    exact ⟨pl, hpl, by rw [if_pos ht]⟩

lemma collectKeys_gather_fst (c : Nat) (g : Graph) (k : Nat × Option Int)
    (h : k ∈ collectSwitchKeys (gatherExistingLinks c g)) : k.1 ∈ g.map Event.id := by
  obtain ⟨pl, hpl, _, rfl⟩ := (mem_collectSwitchKeys_iff _ k).mp h
  obtain ⟨e, he, hpl2⟩ := (mem_gather_iff c g pl).mp hpl
  rw [mem_gatherEventLinks_parent c e pl hpl2]
  exact List.mem_map.mpr ⟨e, he, rfl⟩

lemma collectKeys_gatherEvent_fst (c : Nat) (e : Event) (k : Nat × Option Int)
    (h : k ∈ collectSwitchKeys (gatherEventLinks c e)) : k.1 = e.id := by
  obtain ⟨pl, hpl, _, rfl⟩ := (mem_collectSwitchKeys_iff _ k).mp h
  exact mem_gatherEventLinks_parent c e pl hpl

lemma collect_filterMap_sc (c : Nat) (eid : Nat) (cs : List (Int × Nat)) :
    collectSwitchKeys (cs.filterMap fun x =>
      if x.2 = c then
        some (⟨eid, ParentLinkType.switchCase, some x.1⟩ : ParentLink)
      else none) =
    cs.filterMap fun x =>
      if x.2 = c then some ((eid, some x.1) : Nat × Option Int) else none := by
  induction cs with
  | nil => rfl
  | cons x rest ih =>
    rw [List.filterMap_cons, List.filterMap_cons]
    by_cases hx : x.2 = c
    · rw [if_pos hx, if_pos hx]
      unfold collectSwitchKeys at ih ⊢
      rw [List.filterMap_cons]
      show (eid, some x.1) ::
          List.filterMap
            (fun pl : ParentLink =>
              if pl.linkType = ParentLinkType.switchCase then
                some (pl.parent, pl.detail)
              else none)
            (List.filterMap
              (fun y : Int × Nat =>
                if y.2 = c then
                  some (⟨eid, ParentLinkType.switchCase, some y.1⟩ : ParentLink)
                else none)
              rest) =
        (eid, some x.1) ::
          List.filterMap (fun y : Int × Nat =>
            if y.2 = c then some ((eid, some y.1) : Nat × Option Int) else none) rest
      exact congrArg _ ih
    · rw [if_neg hx, if_neg hx]
      exact ih

lemma collect_replicate_fb (eid : Nat) (n : Nat) :
    collectSwitchKeys
      (List.replicate n (⟨eid, ParentLinkType.forkBranch, none⟩ : ParentLink)) = [] := by
  induction n with
  | zero => rfl
  | succ k ih =>
    rw [List.replicate_succ]
    unfold collectSwitchKeys at ih ⊢
    rw [List.filterMap_cons]
    simp only
    rw [if_neg (by simp)]
    exact ih

lemma nodup_collectKeys_gatherEvent (c : Nat) (e : Event) (hwf : wfEvent e) :
    (collectSwitchKeys (gatherEventLinks c e)).Nodup := by
  rcases e with ⟨eid, edata⟩
  cases edata with
  | sequential nxt =>
    simp only [gatherEventLinks]
    by_cases h : nxt = some c
    · rw [if_pos h]
      unfold collectSwitchKeys
      rw [List.filterMap_cons]
      rw [if_neg (by simp)]
      exact List.nodup_nil
    · rw [if_neg h]
      exact List.nodup_nil
  | switch cs =>
    have hkeys : (cs.map Prod.fst).Nodup := by
      simpa [wfEvent, casesOf] using hwf
    have hcs : cs.Nodup := List.Nodup.of_map _ hkeys
    show (collectSwitchKeys (cs.filterMap fun x =>
      if x.2 = c then
        some (⟨eid, ParentLinkType.switchCase, some x.1⟩ : ParentLink)
      else none)).Nodup
    rw [collect_filterMap_sc]
    apply List.Nodup.filterMap _ hcs
    intro a a2 b hb hb2
    split at hb
    · next ha =>
      rcases Option.mem_some_iff.mp hb with rfl
      split at hb2
      · next ha2 =>
        rcases Option.mem_some_iff.mp hb2 with h2
        have h1 : a2.1 = a.1 := by
          have := congrArg Prod.snd h2
          simpa using this
        have h3 : a.2 = a2.2 := by
          rw [ha, ha2]
        rcases a with ⟨x1, x2⟩
        rcases a2 with ⟨y1, y2⟩
        simp only at h1 h3
        rw [← h1, h3]
      · cases hb2
    · cases hb
  | fork fs =>
    show (collectSwitchKeys (fs.filterMap fun f =>
      if f = c then
        some (⟨eid, ParentLinkType.forkBranch, none⟩ : ParentLink)
      else none)).Nodup
    rw [filterMap_fork_eq_replicate, collect_replicate_fb]
    exact List.nodup_nil
  | other => exact List.nodup_nil

lemma nodup_collectKeys_gather (c : Nat) (g : Graph) (hwf : wfGraph g) :
    (collectSwitchKeys (gatherExistingLinks c g)).Nodup := by
  obtain ⟨hids, hev⟩ := hwf
  induction g with
  | nil => exact List.nodup_nil
  | cons e rest ih =>
    simp only [List.map_cons, List.nodup_cons] at hids
    rw [gatherExistingLinks, collectSwitchKeys_append, List.nodup_append]
    refine ⟨nodup_collectKeys_gatherEvent c e (hev e (List.mem_cons_self _ _)),
      ih hids.2 fun e2 hm => hev e2 (List.mem_cons_of_mem _ hm), ?_⟩
    intro k hk hk2
    have h1 := collectKeys_gatherEvent_fst c e k hk
    have h2 := collectKeys_gather_fst c rest k hk2
    rw [h1] at h2
    exact hids.1 h2

lemma isValid_gather (c : Nat) (g : Graph) (hwf : wfGraph g) :
    isValid (gatherExistingLinks c g) = true := by
  rw [isValid, noDupKeys_eq_true_iff]
  exact nodup_collectKeys_gather c g hwf

/-! ### Applying the gathered set is a no-op -/

lemma needsOverwrite_gather_false (c : Nat) (g : Graph) (hwf : wfGraph g) :
    needsOverwriteConfirm c (gatherExistingLinks c g) g = false := by
  rw [needsOverwriteConfirm, List.any_eq_false]
  intro e he hbody
  rw [Bool.and_eq_true] at hbody
  have hd := (wantsNext_gather_iff c g e hwf.1 he).mp hbody.1
  have := hbody.2
  rw [hd] at this
  simp at this

lemma processEvent_gather_noop (c : Nat) (g : Graph) (e : Event)
    (hwf : wfGraph g) (he : e ∈ g) :
    processEvent c (gatherExistingLinks c g) e = (true, e) := by
  have hwfe : wfEvent e := hwf.2 e he
  rcases he2 : e with ⟨eid, edata⟩
  cases edata with
  | sequential nxt =>
    have hiff := wantsNext_gather_iff c g e hwf.1 he
    rw [he2] at hiff
    simp only at hiff
    by_cases hn : nxt = some c
    · have hw : wantsNext (gatherExistingLinks c g) eid = true :=
        hiff.mpr (by rw [hn])
      simp [processEvent, applyNext, hw, hn]
    · have hw : wantsNext (gatherExistingLinks c g) eid = false := by
        cases hb : wantsNext (gatherExistingLinks c g) eid with
        | false => rfl
        | true =>
          have := hiff.mp hb
          cases this
          exact absurd rfl hn
      simp only [processEvent, applyNext, hw]
      rw [if_neg (by simp), if_neg hn]
  | switch cs =>
    have hvals : desiredSwitchValues (gatherExistingLinks c g) eid =
        desiredSwitchValues (gatherEventLinks c ⟨eid, EventData.switch cs⟩) eid := by
      have := desiredSwitchValues_gather_unique c g e eid hwf.1 he (by rw [he2])
      rw [he2] at this
      exact this
    have hmemiff : ∀ v, v ∈ desiredSwitchValues (gatherExistingLinks c g) eid ↔
        (v, c) ∈ cs := by
      intro v
      rw [hvals]
      exact mem_desiredSwitchValues_gatherEvent_switch c eid cs v
    have hkeys : (cs.map Prod.fst).Nodup := by
      rw [he2] at hwfe
      simpa [wfEvent, casesOf] using hwfe
    have hrem : removeStaleCases c
        (desiredSwitchValues (gatherExistingLinks c g) eid) cs = cs := by
      apply removeStaleCases_eq_self_of_desired
      intro x hx hxc
      exact (hmemiff x.1).mpr (by rw [← hxc]; exact hx)
    have hadd : addDesiredCases c
        (desiredSwitchValues (gatherExistingLinks c g) eid) cs = (true, cs) := by
      apply addDesiredCases_noop
      intro v hv
      exact lookupCase_eq_some_of_mem v c cs hkeys ((hmemiff v).mp hv)
    simp only [processEvent, applySwitchEvent, hrem, hadd]
  | fork fs =>
    have hfc : linkCount (gatherExistingLinks c g) eid ParentLinkType.forkBranch =
        countChild c fs := by
      have := linkCount_gather_unique c g e eid ParentLinkType.forkBranch hwf.1 he
        (by rw [he2])
      rw [he2] at this
      rw [this, linkCount_gatherEvent_fork]
    simp only [processEvent, applyForkEvent, hfc]
    rw [if_neg (by omega), if_neg (by omega)]
  | other => rfl

lemma applyToEvents_noop (c : Nat) (d : List ParentLink) (g : Graph)
    (h : ∀ e ∈ g, processEvent c d e = (true, e)) :
    applyToEvents c d g = (true, g) := by
  induction g with
  | nil => rfl
  | cons e rest ih =>
    simp only [applyToEvents]
    rw [h e (List.mem_cons_self _ _)]
    simp only [if_pos rfl]
    rw [ih fun e2 hm => h e2 (List.mem_cons_of_mem _ hm)]
    rfl

lemma applyChanges_gather_noop (c : Nat) (g : Graph) (confirm : Bool)
    (hwf : wfGraph g) :
    applyChanges c (gatherExistingLinks c g) confirm g = (true, g) := by
  unfold applyChanges
  rw [isValid_gather c g hwf, needsOverwrite_gather_false c g hwf]
  simp only [Bool.not_true, Bool.false_and, Bool.false_eq_true, if_false,
    Bool.true_eq_false]
  apply applyToEvents_noop
  intro e he
  exact processEvent_gather_noop c g e hwf he

/-! ### Well-formedness is preserved by a successful apply -/

lemma wfGraph_processed (c : Nat) (d : List ParentLink) (g : Graph)
    (hwf : wfGraph g) :
    wfGraph (g.map fun e => (processEvent c d e).2) := by
  constructor
  · rw [List.map_map]
    have hfun : (Event.id ∘ fun e => (processEvent c d e).2) = Event.id :=
      funext fun e => processEvent_id c d e
    rw [hfun]
    exact hwf.1
  · intro e2 he2
    obtain ⟨e, he, rfl⟩ := List.mem_map.mp he2
    have hwfe : wfEvent e := hwf.2 e he
    rcases e with ⟨eid, edata⟩
    cases edata with
    | sequential nxt => simp [wfEvent, casesOf, processEvent]
    | switch cs =>
      have hkeys : (cs.map Prod.fst).Nodup := by
        simpa [wfEvent, casesOf] using hwfe
      simp only [processEvent, wfEvent, casesOf]
      exact addDesiredCases_keys_nodup c _ _
        (removeStaleCases_keys_nodup c _ cs hkeys)
    | fork fs => simp [wfEvent, casesOf, processEvent]
    | other => simp [wfEvent, casesOf, processEvent]

/-! ### Claim C8: idempotence -/

/-- C8: after one successful apply, regathering the links of the mutated
graph and applying that set again performs no further mutation and succeeds,
regardless of the confirmation answers. -/
theorem C8_apply_idempotent (child : Nat) (desired : List ParentLink)
    (confirm confirm2 : Bool) (g g' : Graph) (hwf : wfGraph g)
    (h : applyChanges child desired confirm g = (true, g')) :
    applyChanges child (gatherExistingLinks child g') confirm2 g' = (true, g') := by
  have hmap := applyChanges_true_map child desired confirm g g' h
  have hwf2 : wfGraph g' := by
    rw [hmap]
    exact wfGraph_processed child desired g hwf
  exact applyChanges_gather_noop child g' confirm2 hwf2

/-- Witness for C8 on a concrete graph and desired set. -/
theorem C8_apply_idempotent_witness :
    (wfGraph [⟨1, EventData.sequential (some 0)⟩, ⟨2, EventData.switch [(3, 0)]⟩] ∧
      applyChanges 0 [⟨1, ParentLinkType.next, none⟩] true
          [⟨1, EventData.sequential (some 0)⟩, ⟨2, EventData.switch [(3, 0)]⟩]
        = (true,
          [⟨1, EventData.sequential (some 0)⟩, ⟨2, EventData.switch []⟩])) ∧
    applyChanges 0
        (gatherExistingLinks 0
          [⟨1, EventData.sequential (some 0)⟩, ⟨2, EventData.switch []⟩]) false
        [⟨1, EventData.sequential (some 0)⟩, ⟨2, EventData.switch []⟩]
      = (true, [⟨1, EventData.sequential (some 0)⟩, ⟨2, EventData.switch []⟩]) :=
  ⟨⟨by decide, by decide⟩,
    C8_apply_idempotent 0 [⟨1, ParentLinkType.next, none⟩] true false
      [⟨1, EventData.sequential (some 0)⟩, ⟨2, EventData.switch [(3, 0)]⟩]
      [⟨1, EventData.sequential (some 0)⟩, ⟨2, EventData.switch []⟩]
      (by decide) (by decide)⟩

/-! ### Helper lemmas for the main reconciliation theorem -/

lemma compat_next_elim (dt : EventData)
    (h : compatibleKind ParentLinkType.next dt = true) :
    ∃ nxt, dt = EventData.sequential nxt := by
  cases dt with
  | sequential nxt => exact ⟨nxt, rfl⟩
  | switch cs => cases h
  | fork fs => cases h
  | other => cases h

lemma compat_sc_elim (dt : EventData)
    (h : compatibleKind ParentLinkType.switchCase dt = true) :
    ∃ cs, dt = EventData.switch cs := by
  cases dt with
  | sequential nxt => cases h
  | switch cs => exact ⟨cs, rfl⟩
  | fork fs => cases h
  | other => cases h

lemma compat_fb_elim (dt : EventData)
    (h : compatibleKind ParentLinkType.forkBranch dt = true) :
    ∃ fs, dt = EventData.fork fs := by
  cases dt with
  | sequential nxt => cases h
  | switch cs => cases h
  | fork fs => exact ⟨fs, rfl⟩
  | other => cases h

lemma applyNext_false_ne (c : Nat) (nxt : Option Nat) :
    applyNext c false nxt ≠ some c := by
  unfold applyNext
  rw [if_neg (by simp)]
  by_cases h : nxt = some c
  · rw [if_pos h]
    simp
  · rw [if_neg h]
    exact h

lemma processEvent_all_true (child : Nat) (desired : List ParentLink) (g : Graph)
    (hconf : ∀ e ∈ g, ∀ x ∈ casesOf e, x.1 ∈ desiredSwitchValues desired e.id →
      x.2 = child) :
    ∀ e ∈ g, (processEvent child desired e).1 = true := by
  intro e he
  rcases he2 : e with ⟨eid, edata⟩
  cases edata with
  | sequential nxt => rfl
  | switch cs =>
    show (applySwitchEvent child (desiredSwitchValues desired eid) cs).1 = true
    apply applySwitchEvent_fst_true
    intro v hv t hmem
    have := hconf e he (v, t) (by rw [he2]; exact hmem)
    rw [he2] at this
    exact this hv
  | fork fs => rfl
  | other => rfl

/-! ### Claim C1: the main reconciliation property -/

/-- C1 (counterexample): the claim as stated — no duplicate switch pairs and
no self-parents imply a successful apply — fails when a desired switch case
conflicts with an existing case bound to a different event. -/
theorem C1_counterexample :
    isValid [⟨1, ParentLinkType.switchCase, some 3⟩] = true ∧
    (∀ pl ∈ [(⟨1, ParentLinkType.switchCase, some 3⟩ : ParentLink)], pl.parent ≠ 0) ∧
    (applyChanges 0 [⟨1, ParentLinkType.switchCase, some 3⟩] true
      [⟨1, EventData.switch [(3, 5)]⟩]).1 = false := by
  decide

/-- C1 (amended): for a well-formed graph and a desired list with no
duplicate switch pairs, no self-parents, every parent present in the graph
with a compatible payload kind, and no desired switch case conflicting with a
case bound to a different event, the apply (with overwrite confirmed)
succeeds, and rescanning the mutated graph finds: exactly one Next link per
desired sequential parent and none elsewhere, exactly the desired switch
cases, and per-parent fork-branch counts equal to the desired counts. -/
theorem C1_reconcile_exact (child : Nat) (desired : List ParentLink) (g : Graph)
    (hwf : wfGraph g)
    (hval : isValid desired = true)
    (hself : ∀ pl ∈ desired, pl.parent ≠ child)
    (hin : ∀ pl ∈ desired, ∃ e ∈ g, e.id = pl.parent ∧
      compatibleKind pl.linkType e.data = true)
    (hconf : ∀ e ∈ g, ∀ x ∈ casesOf e, x.1 ∈ desiredSwitchValues desired e.id →
      x.2 = child) :
    ∃ g', applyChanges child desired true g = (true, g') ∧
      (∀ p, linkCount (gatherExistingLinks child g') p ParentLinkType.next =
        if wantsNext desired p then 1 else 0) ∧
      (∀ p v, ((⟨p, ParentLinkType.switchCase, some v⟩ : ParentLink) ∈
          gatherExistingLinks child g') ↔
        (⟨p, ParentLinkType.switchCase, some v⟩ : ParentLink) ∈ desired) ∧
      (∀ p, linkCount (gatherExistingLinks child g') p ParentLinkType.forkBranch =
        linkCount desired p ParentLinkType.forkBranch) := by
  have hall : ∀ e ∈ g, (processEvent child desired e).1 = true :=
    processEvent_all_true child desired g hconf
  have happ := applyToEvents_complete child desired g hall
  refine ⟨g.map fun e => (processEvent child desired e).2, ?_, ?_, ?_, ?_⟩
  · unfold applyChanges
    rw [hval]
    simp only [Bool.not_true, Bool.and_false, Bool.false_eq_true, if_false]
    exact happ
  · -- Next links
    intro p
    have hwf2 := wfGraph_processed child desired g hwf
    by_cases hw : wantsNext desired p = true
    · rw [if_pos hw]
      obtain ⟨pl, hpl, hp, ht⟩ := (wantsNext_eq_true_iff desired p).mp hw
      obtain ⟨e, he, hid, hcompat⟩ := hin pl hpl
      rw [ht] at hcompat
      obtain ⟨nxt, hdata⟩ := compat_next_elim e.data hcompat
      have he2 : e = ⟨e.id, EventData.sequential nxt⟩ := by
        rcases e with ⟨eid, edata⟩
        simp only at hdata
        rw [hdata]
      have hidp : e.id = p := by rw [hid, hp]
      have hmem2 : (⟨e.id, EventData.sequential
          (applyNext child (wantsNext desired e.id) nxt)⟩ : Event) ∈
          g.map fun e => (processEvent child desired e).2 := by
        apply List.mem_map.mpr
        refine ⟨e, he, ?_⟩
        rw [he2]
        rfl
      rw [linkCount_gather_unique child _ _ p ParentLinkType.next hwf2.1 hmem2 hidp]
      have hwe : wantsNext desired e.id = true := by
        rw [hidp]
        exact hw
      rw [hidp] at hwe ⊢
      rw [linkCount_gatherEvent_next_seq]
      rw [if_pos (by rw [hwe]; simp [applyNext])]
    · have hw2 : wantsNext desired p = false := by
        cases hb : wantsNext desired p with
        | false => rfl
        | true => exact absurd hb hw
      rw [if_neg (by rw [hw2]; simp)]
      apply linkCount_gather_zero_of_all
      intro e2 he2
      obtain ⟨e, he, rfl⟩ := List.mem_map.mp he2
      rcases e with ⟨eid, edata⟩
      cases edata with
      | sequential nxt =>
        by_cases hidp : eid = p
        · subst hidp
          show linkCount (gatherEventLinks child
            ⟨eid, EventData.sequential
              (applyNext child (wantsNext desired eid) nxt)⟩) eid
            ParentLinkType.next = 0
          rw [linkCount_gatherEvent_next_seq, hw2,
            if_neg (applyNext_false_ne child nxt)]
        · exact linkCount_gatherEvent_ne child _ p ParentLinkType.next hidp
      | switch cs =>
        exact linkCount_gatherEvent_next_of_switch child eid _ p
      | fork fs =>
        exact linkCount_gatherEvent_next_of_fork child eid _ p
      | other => rfl
  · -- Switch cases
    intro p v
    constructor
    · intro hmem
      obtain ⟨e2, he2, hpl2⟩ := (mem_gather_iff child _ _).mp hmem
      obtain ⟨cs2, v2, hd2, hm2, heq⟩ :=
        mem_gatherEventLinks_sc_char child e2 _ hpl2 rfl
      have hpv : p = e2.id ∧ v = v2 := by
        constructor
        · exact congrArg ParentLink.parent heq
        · have := congrArg ParentLink.detail heq
          simpa using this
      obtain ⟨e, he, rfl⟩ := List.mem_map.mp he2
      rcases e with ⟨eid, edata⟩
      cases edata with
      | sequential nxt =>
        exfalso
        simp only [processEvent] at hd2
        cases hd2
      | switch cs =>
        simp only [processEvent] at hd2
        cases hd2
        have hidp : p = eid := by
          rw [hpv.1]
          rfl
        have hv2 : v2 ∈ desiredSwitchValues desired eid := by
          apply applySwitchEvent_mem_child_inv child _ cs v2
          exact hm2
        obtain ⟨pl, hpl, hplp, hplt, hpld⟩ :=
          (mem_desiredSwitchValues_iff desired eid v2).mp hv2
        have : pl = ⟨p, ParentLinkType.switchCase, some v⟩ := by
          rcases pl with ⟨a, b, d⟩
          simp only at hplp hplt hpld
          rw [hplp, hplt, hpld, hidp, hpv.2]
        rw [← this]
        exact hpl
      | fork fs =>
        exfalso
        simp only [processEvent] at hd2
        cases hd2
      | other =>
        exfalso
        simp only [processEvent] at hd2
        cases hd2
    · intro hmem
      have hv : v ∈ desiredSwitchValues desired p :=
        (mem_desiredSwitchValues_iff desired p v).mpr
          ⟨⟨p, ParentLinkType.switchCase, some v⟩, hmem, rfl, rfl, rfl⟩
      obtain ⟨e, he, hid, hcompat⟩ := hin _ hmem
      obtain ⟨cs, hdata⟩ := compat_sc_elim e.data hcompat
      rcases e with ⟨eid, edata⟩
      simp only at hdata hid
      subst hdata
      subst hid
      have hok : (applySwitchEvent child
          (desiredSwitchValues desired eid) cs).1 = true := hall _ he
      have hm2 : (v, child) ∈ (applySwitchEvent child
          (desiredSwitchValues desired eid) cs).2 :=
        applySwitchEvent_mem_child_of child _ cs v hok hv
      apply (mem_gather_iff child _ _).mpr
      refine ⟨⟨eid, EventData.switch (applySwitchEvent child
        (desiredSwitchValues desired eid) cs).2⟩,
        List.mem_map.mpr ⟨⟨eid, EventData.switch cs⟩, he, rfl⟩, ?_⟩
      exact sc_mem_gatherEventLinks child _ _ v rfl hm2
  · -- Fork branches
    intro p
    have hwf2 := wfGraph_processed child desired g hwf
    by_cases hex : ∃ e ∈ g, e.id = p
    · obtain ⟨e, he, hid⟩ := hex
      rcases e with ⟨eid, edata⟩
      simp only at hid
      have hid2 : p = eid := hid.symm
      subst hid2
      cases edata with
      | sequential nxt =>
        have hrhs : linkCount desired p ParentLinkType.forkBranch = 0 := by
          by_contra h0
          obtain ⟨pl, hpl, hplp, hplt⟩ :=
            exists_mem_of_linkCount_pos desired p ParentLinkType.forkBranch
              (Nat.pos_of_ne_zero h0)
          obtain ⟨e2, he2, hid2, hcompat2⟩ := hin pl hpl
          rw [hplt] at hcompat2
          obtain ⟨fs2, hdata2⟩ := compat_fb_elim e2.data hcompat2
          have : e2 = ⟨p, EventData.sequential nxt⟩ :=
            event_id_inj g hwf.1 e2 _ he2 he (by rw [hid2, hplp])
          rw [this] at hdata2
          cases hdata2
        rw [hrhs]
        have hmem2 : (⟨p, EventData.sequential
            (applyNext child (wantsNext desired p) nxt)⟩ : Event) ∈
            g.map fun e => (processEvent child desired e).2 :=
          List.mem_map.mpr ⟨⟨p, EventData.sequential nxt⟩, he, rfl⟩
        rw [linkCount_gather_unique child _ _ p ParentLinkType.forkBranch
          hwf2.1 hmem2 rfl]
        exact linkCount_gatherEvent_fork_of_seq child p _ p
      | switch cs =>
        have hrhs : linkCount desired p ParentLinkType.forkBranch = 0 := by
          by_contra h0
          obtain ⟨pl, hpl, hplp, hplt⟩ :=
            exists_mem_of_linkCount_pos desired p ParentLinkType.forkBranch
              (Nat.pos_of_ne_zero h0)
          obtain ⟨e2, he2, hid2, hcompat2⟩ := hin pl hpl
          rw [hplt] at hcompat2
          obtain ⟨fs2, hdata2⟩ := compat_fb_elim e2.data hcompat2
          have : e2 = ⟨p, EventData.switch cs⟩ :=
            event_id_inj g hwf.1 e2 _ he2 he (by rw [hid2, hplp])
          rw [this] at hdata2
          cases hdata2
        rw [hrhs]
        have hmem2 : (⟨p, EventData.switch (applySwitchEvent child
            (desiredSwitchValues desired p) cs).2⟩ : Event) ∈
            g.map fun e => (processEvent child desired e).2 :=
          List.mem_map.mpr ⟨⟨p, EventData.switch cs⟩, he, rfl⟩
        rw [linkCount_gather_unique child _ _ p ParentLinkType.forkBranch
          hwf2.1 hmem2 rfl]
        exact linkCount_gatherEvent_fork_of_switch child p _ p
      | fork fs =>
        have hmem2 : (⟨p, EventData.fork (applyForkEvent child
            (linkCount desired p ParentLinkType.forkBranch) fs)⟩ : Event) ∈
            g.map fun e => (processEvent child desired e).2 :=
          List.mem_map.mpr ⟨⟨p, EventData.fork fs⟩, he, rfl⟩
        rw [linkCount_gather_unique child _ _ p ParentLinkType.forkBranch
          hwf2.1 hmem2 rfl]
        rw [linkCount_gatherEvent_fork, countChild_applyForkEvent]
      | other =>
        have hrhs : linkCount desired p ParentLinkType.forkBranch = 0 := by
          by_contra h0
          obtain ⟨pl, hpl, hplp, hplt⟩ :=
            exists_mem_of_linkCount_pos desired p ParentLinkType.forkBranch
              (Nat.pos_of_ne_zero h0)
          obtain ⟨e2, he2, hid2, hcompat2⟩ := hin pl hpl
          rw [hplt] at hcompat2
          obtain ⟨fs2, hdata2⟩ := compat_fb_elim e2.data hcompat2
          have : e2 = ⟨p, EventData.other⟩ :=
            event_id_inj g hwf.1 e2 _ he2 he (by rw [hid2, hplp])
          rw [this] at hdata2
          cases hdata2
        rw [hrhs]
        have hmem2 : (⟨p, EventData.other⟩ : Event) ∈
            g.map fun e => (processEvent child desired e).2 :=
          List.mem_map.mpr ⟨⟨p, EventData.other⟩, he, rfl⟩
        rw [linkCount_gather_unique child _ _ p ParentLinkType.forkBranch
          hwf2.1 hmem2 rfl]
        rfl
    · have hrhs : linkCount desired p ParentLinkType.forkBranch = 0 := by
        by_contra h0
        obtain ⟨pl, hpl, hplp, hplt⟩ :=
          exists_mem_of_linkCount_pos desired p ParentLinkType.forkBranch
            (Nat.pos_of_ne_zero h0)
        obtain ⟨e2, he2, hid2, _⟩ := hin pl hpl
        exact hex ⟨e2, he2, by rw [hid2, hplp]⟩
      rw [hrhs]
      apply linkCount_gather_zero_of_all
      intro e2 he2
      obtain ⟨e, he, rfl⟩ := List.mem_map.mp he2
      apply linkCount_gatherEvent_ne
      rw [processEvent_id]
      exact fun hc => hex ⟨e, he, hc⟩

/-- Witness for the amended C1 theorem on a concrete three-parent graph. -/
theorem C1_reconcile_exact_witness :
    (wfGraph [⟨1, EventData.sequential (some 9)⟩,
        ⟨2, EventData.switch [(3, 0), (4, 7)]⟩, ⟨5, EventData.fork [0, 7, 0]⟩] ∧
      isValid [⟨1, ParentLinkType.next, none⟩, ⟨2, ParentLinkType.switchCase, some 3⟩,
        ⟨2, ParentLinkType.switchCase, some 9⟩, ⟨5, ParentLinkType.forkBranch, none⟩,
        ⟨5, ParentLinkType.forkBranch, none⟩] = true) ∧
    ∃ g', applyChanges 0
        [⟨1, ParentLinkType.next, none⟩, ⟨2, ParentLinkType.switchCase, some 3⟩,
          ⟨2, ParentLinkType.switchCase, some 9⟩, ⟨5, ParentLinkType.forkBranch, none⟩,
          ⟨5, ParentLinkType.forkBranch, none⟩] true
        [⟨1, EventData.sequential (some 9)⟩,
          ⟨2, EventData.switch [(3, 0), (4, 7)]⟩, ⟨5, EventData.fork [0, 7, 0]⟩]
      = (true, g') := by
  refine ⟨⟨by decide, by decide⟩, ?_⟩
  obtain ⟨g', h1, -, -, -⟩ :=
    C1_reconcile_exact 0
      [⟨1, ParentLinkType.next, none⟩, ⟨2, ParentLinkType.switchCase, some 3⟩,
        ⟨2, ParentLinkType.switchCase, some 9⟩, ⟨5, ParentLinkType.forkBranch, none⟩,
        ⟨5, ParentLinkType.forkBranch, none⟩]
      [⟨1, EventData.sequential (some 9)⟩,
        ⟨2, EventData.switch [(3, 0), (4, 7)]⟩, ⟨5, EventData.fork [0, 7, 0]⟩]
      (by decide) (by decide) (by decide) (by decide) (by decide)
  exact ⟨g', h1⟩

end EventEditor
